import Mathlib

/-!
Verification development for the Hostel Dada console demo (C++ sources under
`src/`).  Each module's algorithmic core is shallowly embedded as executable
Lean definitions; machine `int` arithmetic is modelled by `Int` (all claims
stay within the defined-behaviour range of 32-bit `int`, so no wrap-around is
modelled), `std::map` / `std::unordered_map` by association lists with
first-match lookup, and `std::priority_queue` by the libstdc++ binary-heap
algorithms (`__push_heap` / `__adjust_heap` from `bits/stl_heap.h`), which is
the library the sources are compiled against; `std::string` comparison is the
byte-wise lexicographic order (identical to Lean character order on the ASCII
data used here).
-/

set_option maxHeartbeats 1000000

namespace HostelDada

/-! ## Association-list maps (model of `std::map` / `std::unordered_map`)

Lookup finds the first matching key; `alistSet` updates the first matching
entry or appends a fresh one (the model of `m[k] = v`).  Key order inside the
list is irrelevant to lookups, so the sortedness of `std::map` iteration does
not need to be modelled for the claims below. -/

def alistLookup {β : Type} : List (String × β) → String → Option β
| [], _ => none
| (k, v) :: rest, x => if k = x then some v else alistLookup rest x

def alistSet {β : Type} : List (String × β) → String → β → List (String × β)
| [], x, v => [(x, v)]
| (k, w) :: rest, x, v =>
    if k = x then (k, v) :: rest else (k, w) :: alistSet rest x v

/-! ## Byte-lexicographic string order (model of `std::string::operator<`) -/

def charLexLt : List Char → List Char → Bool
| [], [] => false
| [], _ :: _ => true
| _ :: _, [] => false
| c :: cs, d :: ds =>
    if c.toNat < d.toNat then true
    else if d.toNat < c.toNat then false
    else charLexLt cs ds

def strLtB (a b : String) : Bool := charLexLt a.data b.data

/-! ## Binary heap, exactly the libstdc++ `std::priority_queue` algorithms

The comparator `comp` is the C++ comparator object (`std::greater`-style:
`comp a b` means "`a` sorts after `b`", so the heap pops the *smallest*
element first).  `siftUp` is `std::__push_heap`, `adjustDown` is the
hole-descent part of `std::__adjust_heap`, and `heapPop` is
`std::pop_heap` (guarded for size > 1) followed by `pop_back`. -/

section PriorityQueue

variable {α : Type} [Inhabited α]

def parentIdx (i : Nat) : Nat := (i - 1) / 2

/-- `std::__push_heap`: walk the ancestor chain from `hole`, shifting down
every ancestor strictly greater than `v`, then place `v`. -/
def siftUp (comp : α → α → Bool) (l : List α) (hole : Nat) (v : α) : List α :=
  if h : hole = 0 then l.set 0 v
  else
    let p := parentIdx hole
    if comp (l.getD p default) v then
      siftUp comp (l.set hole (l.getD p default)) p v
    else l.set hole v
termination_by hole
decreasing_by
  exact lt_of_le_of_lt (Nat.div_le_self _ _)
    (Nat.sub_lt (Nat.pos_of_ne_zero h) one_pos)

/-- `std::priority_queue::push`: `push_back` then `push_heap`. -/
def heapPush (comp : α → α → Bool) (l : List α) (x : α) : List α :=
  siftUp comp (l ++ [x]) l.length x

/-- Hole-descent phase of `std::__adjust_heap`: move the hole to a childless
position, promoting at each step the child that is not greater than its
sibling (ties pick the right child, as in the library). Returns the array and
the final hole index. -/
def adjustDown (comp : α → α → Bool) (l : List α) (hole len : Nat) :
    List α × Nat :=
  if h : hole < (len - 1) / 2 then
    let r := 2 * hole + 2
    let c := if comp (l.getD r default) (l.getD (r - 1) default)
             then r - 1 else r
    adjustDown comp (l.set hole (l.getD c default)) c len
  else if len % 2 = 0 ∧ hole = (len - 2) / 2 then
    (l.set hole (l.getD (2 * hole + 1) default), 2 * hole + 1)
  else (l, hole)
termination_by len - hole
decreasing_by
  have hr : hole < 2 * hole + 2 - 1 := by omega
  have hc : hole < if comp (l.getD (2 * hole + 2) default)
      (l.getD (2 * hole + 2 - 1) default) then 2 * hole + 2 - 1
      else 2 * hole + 2 := by
    split <;> omega
  have hlen : hole < len := by
    have := Nat.div_le_self (len - 1) 2
    omega
  exact Nat.sub_lt_sub_left hlen hc

/-- `top()` followed by `pop()` on a `std::priority_queue`:
`pop_heap` (which for size > 1 saves the last element as `value`, moves the
root out, and runs `__adjust_heap` on the first `n-1` slots) then
`pop_back`. -/
def heapPop (comp : α → α → Bool) (l : List α) : Option (α × List α) :=
  match l with
  | [] => none
  | [x] => some (x, [])
  | x :: y :: rest =>
    let l0 := x :: y :: rest
    let n := l0.length
    let v := l0.getD (n - 1) default
    let pre := l0.take (n - 1)
    let ad := adjustDown comp pre 0 (n - 1)
    some (x, siftUp comp ad.1 ad.2 v)

def heapPopAllAux (comp : α → α → Bool) : Nat → List α → List α
| 0, _ => []
| fuel + 1, l =>
    match heapPop comp l with
    | none => []
    | some (x, l') => x :: heapPopAllAux comp fuel l'

/-- Repeatedly `top()`/`pop()` until the queue is empty (the printing loops in
`HostelFixer::run` and `SnackCart::run`). -/
def heapPopAll (comp : α → α → Bool) (l : List α) : List α :=
  heapPopAllAux comp l.length l

end PriorityQueue

/-! ## Heap predicates (used by the correctness development below) -/

section HeapPredicates

variable {α : Type} [Inhabited α]
variable (comp : α → α → Bool)

/-- Asymmetry of the comparator (strict weak order, part 1). -/
def CompAsym : Prop := ∀ a b, comp a b = true → comp b a = false

/-- Negative transitivity of the comparator (strict weak order, part 2). -/
def CompNegTrans : Prop :=
  ∀ a b c, comp a b = false → comp b c = false → comp a c = false

/-- Min-heap shape of the backing vector: no parent is greater than its
child. -/
def IsHeap (l : List α) : Prop :=
  ∀ i, 1 ≤ i → i < l.length →
    comp (l.getD (parentIdx i) default) (l.getD i default) = false


/-- Heap shape away from the hole (pairs where neither end is `hole`). -/
def HeapExcept (l : List α) (hole : Nat) : Prop :=
  ∀ i, 1 ≤ i → i < l.length → i ≠ hole → parentIdx i ≠ hole →
    comp (l.getD (parentIdx i) default) (l.getD i default) = false

/-- Precondition letting `siftUp` restore a full heap: each child of the
hole is no earlier than the sift value and no earlier than the hole's
parent. -/
def UpOK (l : List α) (hole : Nat) (v : α) : Prop :=
  ∀ j, 1 ≤ j → j < l.length → parentIdx j = hole →
    comp v (l.getD j default) = false ∧
    (1 ≤ hole →
      comp (l.getD (parentIdx hole) default) (l.getD j default) = false)

end HeapPredicates

/-! ## HostelFixer: task prioritizer (`src/modules/HostelFixer.cpp`) -/

structure Task where
  desc : String
  urgency : Int
deriving DecidableEq, Inhabited

/-- `Task::operator>` (compares only `urgency`), applied through
`std::greater<Task>`, the comparator of the `tasks` priority queue. -/
def taskComp (a b : Task) : Bool := decide (b.urgency < a.urgency)

/-- State of the global `tasks` queue after pushing the given tasks in
order (each `HostelFixer::run` call pushes one task). -/
def insertTasks (ts : List Task) : List Task :=
  ts.foldl (heapPush taskComp) []

/-- The "Urgent Tasks" report: drain a copy of `tasks`, printing
`top()` then `pop()` until empty. -/
def listByUrgency (ts : List Task) : List Task :=
  heapPopAll taskComp (insertTasks ts)

/-! ## HostelFixer: Dijkstra (`src/modules/HostelFixer.cpp`) -/

/-- `graph` adjacency: node name to list of (neighbour, weight). -/
abbrev Graph := List (String × List (String × Int))

/-- `graph[u]` — the adjacency read; the default-constructed empty vector
for a missing key is observationally the empty list. -/
def graphAdj (g : Graph) (u : String) : List (String × Int) :=
  (alistLookup g u).getD []

/-- Keys of the adjacency map. -/
def graphKeys (g : Graph) : List String := g.map Prod.fst

/-- `std::map<std::string,int> dist` access via `operator[]`, which
default-inserts `0` for a missing key: returns the value and the (possibly
extended) map. -/
def distGet (m : List (String × Int)) (x : String) :
    Int × List (String × Int) :=
  match alistLookup m x with
  | some v => (v, m)
  | none => (0, m ++ [(x, 0)])

/-- Lexicographic order on `(int, std::string)` pairs, as used by
`std::greater<>` on the Dijkstra priority queue. -/
def pairLt (a b : Int × String) : Bool :=
  decide (a.1 < b.1) || (decide (a.1 = b.1) && strLtB a.2 b.2)

/-- Smallest element of the Dijkstra priority queue (what `top()` with
`std::greater<>` yields); equal pairs are interchangeable, so list order is
irrelevant. -/
def pqMin : List (Int × String) → Option (Int × String)
| [] => none
| x :: xs => some (xs.foldl (fun m y => if pairLt y m then y else m) x)

/-- Remove one occurrence of a pair from the queue. -/
def pqErase : List (Int × String) → Int × String → List (Int × String)
| [], _ => []
| x :: xs, e => if x = e then xs else x :: pqErase xs e

/-- `top()`+`pop()` on the Dijkstra priority queue. -/
def pqPop (pq : List (Int × String)) :
    Option ((Int × String) × List (Int × String)) :=
  match pqMin pq with
  | none => none
  | some e => some (e, pqErase pq e)

/-- One relaxation: `if (dist[v] > dist[u] + w) { dist[v] = dist[u] + w;
pq.push({dist[v], v}); }` with `operator[]` default-insertion modelled. -/
def relaxEdge (u : String) (st : List (String × Int) × List (Int × String))
    (e : String × Int) : List (String × Int) × List (Int × String) :=
  let (v, w) := e
  let (dv, m1) := distGet st.1 v
  let (du, m2) := distGet m1 u
  if du + w < dv then
    (alistSet m2 v (du + w), st.2 ++ [(du + w, v)])
  else (m2, st.2)

/-- The Dijkstra `while (!pq.empty())` loop, fuel-indexed (the C++ loop need
not terminate for arbitrary `int` weights); `none` means the fuel ran out
before the queue drained. -/
def dijkstraLoop (g : Graph) : Nat → List (String × Int) →
    List (Int × String) → Option (List (String × Int))
| 0, _, _ => none
| fuel + 1, dist, pq =>
    match pqPop pq with
    | none => some dist
    | some ((d, u), pq') =>
        let (du, dist1) := distGet dist u
        if du < d then dijkstraLoop g fuel dist1 pq'
        else
          let st := (graphAdj g u).foldl (relaxEdge u) (dist1, pq')
          dijkstraLoop g fuel st.1 st.2

/-- `for (auto& kv : graph) dist[kv.first] = 1e9; dist[src] = 0;` (the
iteration order of `std::map` does not change the resulting map
contents). -/
def dijkstraInit (g : Graph) (src : String) : List (String × Int) :=
  alistSet (g.foldl (fun m kv => alistSet m kv.1 1000000000) []) src 0

/-- The whole shortest-path computation of `HostelFixer::run`, returning the
printed `dist[dest]` (again an `operator[]` read, defaulting to 0). -/
def dijkstra (g : Graph) (src dest : String) (fuel : Nat) : Option Int :=
  (dijkstraLoop g fuel (dijkstraInit g src) [(0, src)]).map
    (fun dist => (distGet dist dest).1)

/-- The seed `graph` of `HostelFixer.cpp`. -/
def seedGraph : Graph :=
  [("Gate", [("Mess", 2), ("Laundry", 4)]),
   ("Mess", [("Gate", 2), ("Laundry", 1)]),
   ("Laundry", [("Gate", 4), ("Mess", 1)])]

/-- Paths in the graph: `Path g src v d` holds when there is a walk from
`src` to `v` whose edge weights sum to `d`. -/
inductive Path (g : Graph) (src : String) : String → Int → Prop
| refl : Path g src src 0
| tail {u v : String} {d w : Int} :
    Path g src u d → (v, w) ∈ graphAdj g u → Path g src v (d + w)

/-- All edge weights of the graph are non-negative (checked entry-wise, so
it is decidable on concrete graphs). -/
def NonnegGraph (g : Graph) : Prop :=
  ∀ kv ∈ g, ∀ e ∈ kv.2, 0 ≤ e.2

/-! ## SnackCart (`src/modules/SnackCart.cpp`) -/

structure Snack where
  name : String
  quantity : Int
  price : Int
  expiry : String
deriving DecidableEq, Inhabited

/-- `ExpiryCompare`: `a.expiry > b.expiry` on `std::string` (byte-wise
lexicographic). -/
def ExpiryCompare (a b : Snack) : Bool := strLtB b.expiry a.expiry

/-- The "View Stock" branch: push every stock entry into a
`priority_queue<Snack, vector<Snack>, ExpiryCompare>` and drain it. -/
def rankByExpiry (stock : List (String × Snack)) : List Snack :=
  heapPopAll ExpiryCompare
    ((stock.map Prod.snd).foldl (heapPush ExpiryCompare) [])

structure CartState where
  stock : List (String × Snack)
  salesHistory : List (String × Int)
deriving DecidableEq

/-- The "Buy Snack" branch of `SnackCart::run`:
`if (stock.count(name) && stock[name].quantity >= qty) { stock[name].quantity
-= qty; salesHistory.push_back({name, qty * stock[name].price}); }`.
Returns the new state and whether the purchase succeeded. -/
def purchase (st : CartState) (name : String) (qty : Int) :
    CartState × Bool :=
  match alistLookup st.stock name with
  | some s =>
      if qty ≤ s.quantity then
        ({ stock := alistSet st.stock name
              { s with quantity := s.quantity - qty },
           salesHistory := st.salesHistory ++ [(name, qty * s.price)] }, true)
      else (st, false)
  | none => (st, false)

def insertByProfitDesc (x : String × Int) :
    List (String × Int) → List (String × Int)
| [] => [x]
| y :: ys => if x.2 > y.2 then x :: y :: ys else y :: insertByProfitDesc x ys

/-- Model of `std::sort(salesHistory.begin(), salesHistory.end(),
[](a, b){ return a.second > b.second; })`.  `std::sort` promises exactly a
permutation sorted by the comparator (tie order unspecified); this insertion
sort realises that contract and coincides with any conforming implementation
whenever profits are pairwise distinct. -/
def sortByProfitDesc (l : List (String × Int)) : List (String × Int) :=
  l.foldr insertByProfitDesc []

/-- The "View Profit" branch: sorts `salesHistory` in place (descending by
profit), then prints it and the total.  Returns the mutated state, the
printed sequence, and the printed total. -/
def profitReport (st : CartState) : CartState × List (String × Int) × Int :=
  let sorted := sortByProfitDesc st.salesHistory
  ({ st with salesHistory := sorted }, sorted,
    sorted.foldl (fun t p => t + p.2) 0)

/-- The seed `stock` of `SnackCart.cpp` (iteration order of the
`unordered_map` is irrelevant to the claims below). -/
def seedStock : List (String × Snack) :=
  [("Kurkure", ⟨"Kurkure", 10, 15, "2025-09-01"⟩),
   ("Lays", ⟨"Lays", 5, 20, "2025-08-10"⟩),
   ("Oreo", ⟨"Oreo", 8, 25, "2025-10-05"⟩)]

/-! ## LaundryLoad (`src/modules/LaundryLoad.cpp`) -/

/-- The booking logic of `LaundryLoad::run`: clash iff some stored slot
fails `(end <= s.first || start >= s.second)`; append on success.  Returns
the new slot list and whether the booking succeeded. -/
def bookSlot (slots : List (Int × Int)) (s e : Int) :
    List (Int × Int) × Bool :=
  let clash := slots.any (fun se => !(decide (e ≤ se.1) || decide (s ≥ se.2)))
  if clash then (slots, false) else (slots ++ [(s, e)], true)

/-- The seed `slots` of `LaundryLoad.cpp`. -/
def seedSlots : List (Int × Int) := [(9, 10), (10, 11), (11, 12)]

/-! ## FoodFight (`src/modules/FoodFight.cpp`) -/

/-- The `prefix` vector: `prefix[0] = 0; prefix[i+1] = prefix[i] + 1`. -/
def prefixCounts (ts : List Int) : List Nat :=
  ts.foldl (fun pre _ => pre ++ [pre.getLastD 0 + 1]) [0]

/-- The per-window report lines: for each `i` with `i + window ≤ N`,
`(entryTimes[i], entryTimes[i+window-1], prefix[i+window] - prefix[i])`. -/
def windowReports (ts : List Int) (window : Nat) :
    List (Int × Int × Nat) :=
  (List.range (ts.length + 1 - window)).map (fun i =>
    (ts.getD i 0, ts.getD (i + window - 1) 0,
      (prefixCounts ts).getD (i + window) 0 - (prefixCounts ts).getD i 0))

/-- The "Best time to enter" line: scan starting from
`bestTime = entryTimes[0]`, `minQueue = entryTimes.size()`.  `none` models
the undefined `entryTimes[0]` read on an empty vector. -/
def bestReport (ts : List Int) (window : Nat) : Option (Int × Nat) :=
  match ts with
  | [] => none
  | t0 :: _ =>
      some ((List.range (ts.length + 1 - window)).foldl
        (fun best i =>
          let cnt := (prefixCounts ts).getD (i + window) 0
            - (prefixCounts ts).getD i 0
          if cnt < best.2 then (ts.getD i 0, cnt) else best)
        (t0, ts.length))

/-- The seed `entryTimes` of `FoodFight.cpp` (window size 2 in the code). -/
def seedEntryTimes : List Int := [1, 2, 2, 3, 4, 4, 5]

/-! ## RoomieMatcher (`src/modules/RoomieMatcher.cpp`) -/

/-- `bfsMatch`: scan the student's preference list, claim the first room not
yet in the `matches` map (named `ms` here; `matches` is reserved in
Lean). -/
def tryRooms (student : String) (ms : List (String × String)) :
    List String → List (String × String)
| [] => ms
| r :: rs =>
    if (alistLookup ms r).isSome then tryRooms student ms rs
    else ms ++ [(r, student)]

def bfsMatch (preferences : List (String × List String))
    (ms : List (String × String)) (student : String) :
    List (String × String) :=
  tryRooms student ms ((alistLookup preferences student).getD [])

/-- `RoomieMatcher::run`: clear `matches`, then `bfsMatch` each student in
order. -/
def assignRooms (students : List String)
    (preferences : List (String × List String)) :
    List (String × String) :=
  students.foldl (bfsMatch preferences) []

def seedStudents : List String := ["Alice", "Bob", "Charlie", "Daisy"]

def seedPreferences : List (String × List String) :=
  [("Alice", ["A1"]),
   ("Bob", ["A2"]),
   ("Charlie", ["A1", "A2"]),
   ("Daisy", ["A2"])]


/-! ## Dijkstra loop invariants -/

/-- Base invariant of the Dijkstra loop state: the source distance is
pinned to 0, every recorded distance lies in [0, 10^9], every recorded
distance is realised by a path unless it is the 10^9 sentinel or a
default-inserted 0 on a non-key node, every queue entry's node has a
recorded distance, and every adjacency key has a recorded distance. -/
def DInvBase (g : Graph) (src : String) (dist : List (String × Int))
    (pq : List (Int × String)) : Prop :=
  alistLookup dist src = some 0
  ∧ (∀ x v, alistLookup dist x = some v → 0 ≤ v ∧ v ≤ 1000000000)
  ∧ (∀ x v, alistLookup dist x = some v →
      Path g src x v ∨ v = 1000000000 ∨ (v = 0 ∧ x ∉ graphKeys g))
  ∧ (∀ d x, (d, x) ∈ pq → (alistLookup dist x).isSome)
  ∧ (∀ x ∈ graphKeys g, (alistLookup dist x).isSome)

/-- A node is "settled" in the current state: either a queue entry at or
below its recorded distance is still pending, or all its outgoing edges are
relaxed. -/
def DRelaxed (g : Graph) (dist : List (String × Int))
    (pq : List (Int × String)) (x : String) : Prop :=
  ∀ v, alistLookup dist x = some v → v < 1000000000 →
    (∃ d, (d, x) ∈ pq ∧ d ≤ v)
    ∨ (∀ e ∈ graphAdj g x, ∃ dv, alistLookup dist e.1 = some dv
        ∧ dv ≤ v + e.2)

/-! ## List index/multiset helper lemmas -/

section ListLemmas

variable {α : Type}

lemma getD_set_self (l : List α) (i : Nat) (x d : α) (h : i < l.length) :
    (l.set i x).getD i d = x := by
  simp [List.getD_eq_getElem?_getD, List.getElem?_set_self h]

lemma getD_set_ne (l : List α) (i j : Nat) (x d : α) (h : i ≠ j) :
    (l.set i x).getD j d = l.getD j d := by
  simp [List.getD_eq_getElem?_getD, List.getElem?_set_ne h]

lemma getD_append_left (l l2 : List α) {i : Nat} (d : α) (h : i < l.length) :
    (l ++ l2).getD i d = l.getD i d := by
  simp [List.getD_eq_getElem?_getD, List.getElem?_append, h]

lemma getD_take (l : List α) {n j : Nat} (d : α) (h : j < n) :
    (l.take n).getD j d = l.getD j d := by
  simp [List.getD_eq_getElem?_getD, List.getElem?_take, h]

lemma getD_mem (l : List α) {i : Nat} (d : α) (h : i < l.length) :
    l.getD i d ∈ l := by
  rw [List.getD_eq_getElem?_getD, List.getElem?_eq_getElem h]
  exact List.getElem_mem h

lemma mset_set [DecidableEq α] (l : List α) (i : Nat) (x d : α)
    (h : i < l.length) :
    ((l.set i x : List α) : Multiset α)
      = x ::ₘ (↑l : Multiset α).erase (l.getD i d) := by
  induction l generalizing i with
  | nil => simp at h
  | cons a t ih =>
    cases i with
    | zero => simp [Multiset.erase_cons_head]
    | succ n =>
      have hn : n < t.length := by simpa using h
      by_cases hav : a = t.getD n d
      · have hmem : a ∈ (↑t : Multiset α) := by
          rw [hav]; exact getD_mem t d hn
        calc ((↑((a :: t).set (n + 1) x)) : Multiset α)
            = a ::ₘ ↑(t.set n x) := by simp
          _ = a ::ₘ (x ::ₘ (↑t : Multiset α).erase (t.getD n d)) := by
              rw [ih n hn]
          _ = x ::ₘ (a ::ₘ (↑t : Multiset α).erase a) := by
              rw [Multiset.cons_swap, hav]
          _ = x ::ₘ (↑t : Multiset α) := by rw [Multiset.cons_erase hmem]
          _ = x ::ₘ ((↑(a :: t)) : Multiset α).erase ((a :: t).getD (n + 1) d) := by
              rw [show (a :: t).getD (n + 1) d = t.getD n d from rfl]
              rw [show ((↑(a :: t)) : Multiset α) = a ::ₘ ↑t from rfl]
              rw [← hav, Multiset.erase_cons_head]
      · calc ((↑((a :: t).set (n + 1) x)) : Multiset α)
            = a ::ₘ ↑(t.set n x) := by simp
          _ = a ::ₘ (x ::ₘ (↑t : Multiset α).erase (t.getD n d)) := by
              rw [ih n hn]
          _ = x ::ₘ (a ::ₘ (↑t : Multiset α).erase (t.getD n d)) := by
              rw [Multiset.cons_swap]
          _ = x ::ₘ ((↑(a :: t)) : Multiset α).erase ((a :: t).getD (n + 1) d) := by
              rw [show (a :: t).getD (n + 1) d = t.getD n d from rfl]
              rw [show ((↑(a :: t)) : Multiset α) = a ::ₘ ↑t from rfl]
              rw [Multiset.erase_cons_tail]
              exact hav

lemma take_getD_last [Inhabited α] (l : List α) {n : Nat}
    (h : l.length = n + 1) :
    l = l.take n ++ [l.getD n default] := by
  have hn : n < l.length := by omega
  have hd : l.drop n = l.getD n default :: l.drop (n + 1) := by
    rw [List.getD_eq_getElem?_getD, List.getElem?_eq_getElem hn]
    exact List.drop_eq_getElem_cons hn
  have hd2 : l.drop (n + 1) = [] := by
    apply List.eq_nil_of_length_eq_zero
    simp [h]
  rw [hd2] at hd
  conv_lhs => rw [← List.take_append_drop n l]
  rw [hd]

end ListLemmas

/-! ## Heap correctness

`comp` is the C++ comparator (strict, `std::greater`-style).  The two
hypotheses `Hasym`/`Hneg` say it is a strict weak order, which both source
comparators (`Task::operator>` on `urgency`, `ExpiryCompare` on `expiry`)
satisfy.  `comp a b = false` reads "`a` sorts no later than `b`". -/

section PriorityQueueProofs

variable {α : Type} [Inhabited α]
variable (comp : α → α → Bool)


lemma comp_irrefl (Hasym : CompAsym comp) (a : α) : comp a a = false := by
  cases h : comp a a with
  | false => rfl
  | true =>
    have := Hasym a a h
    rw [h] at this
    exact this

lemma comp_trans (Hasym : CompAsym comp) (Hneg : CompNegTrans comp)
    {a b c : α} (h1 : comp a b = true) (h2 : comp b c = true) :
    comp a c = true := by
  cases h : comp a c with
  | true => rfl
  | false =>
    have h2' := Hasym b c h2
    have := Hneg a c b h h2'
    rw [this] at h1
    exact absurd h1 (by simp)

lemma parentIdx_lt {i : Nat} (h : 1 ≤ i) : parentIdx i < i := by
  unfold parentIdx; omega

lemma parentIdx_child_bounds {j h : Nat} (h1 : 1 ≤ j) (h2 : parentIdx j = h) :
    j = 2 * h + 1 ∨ j = 2 * h + 2 := by
  unfold parentIdx at h2; omega

lemma isHeap_nil : IsHeap comp ([] : List α) := by
  intro i h1 h2; simp at h2

/-- The root of a nonempty heap is no later than every element. -/
lemma isHeap_root_le (Hasym : CompAsym comp) (Hneg : CompNegTrans comp)
    (l : List α) (hl : IsHeap comp l) :
    ∀ i, i < l.length → comp (l.getD 0 default) (l.getD i default) = false := by
  intro i
  induction i using Nat.strong_induction_on with
  | _ i ih =>
    intro hi
    match i, hi with
    | 0, _ => exact comp_irrefl comp Hasym _
    | Nat.succ m, hi =>
      have h1 : 1 ≤ m + 1 := by omega
      have hp : parentIdx (m + 1) < m + 1 := parentIdx_lt h1
      exact Hneg _ _ _ (ih (parentIdx (m + 1)) hp (by omega)) (hl (m + 1) h1 hi)

lemma isHeap_root_le_mem (Hasym : CompAsym comp) (Hneg : CompNegTrans comp)
    (l : List α) (hl : IsHeap comp l) :
    ∀ z ∈ l, comp (l.getD 0 default) z = false := by
  intro z hz
  obtain ⟨i, hi, rfl⟩ := List.getElem_of_mem hz
  have : l[i] = l.getD i default := by
    rw [List.getD_eq_getElem?_getD, List.getElem?_eq_getElem hi]; rfl
  rw [this]
  exact isHeap_root_le comp Hasym Hneg l hl i hi



lemma siftUp_length (l : List α) (hole : Nat) (v : α) :
    (siftUp comp l hole v).length = l.length := by
  induction hole using Nat.strong_induction_on generalizing l with
  | _ hole ih =>
    rw [siftUp]
    by_cases h0 : hole = 0
    · simp [h0]
    · simp only [h0, dite_false]
      by_cases hc : comp (l.getD (parentIdx hole) default) v
      · rw [if_pos hc, ih (parentIdx hole) (parentIdx_lt (by omega))]
        simp
      · rw [if_neg hc]; simp

lemma siftUp_mset [DecidableEq α] (l : List α) (hole : Nat) (v : α)
    (hh : hole < l.length) :
    ((siftUp comp l hole v : List α) : Multiset α)
      = ((l.set hole v : List α) : Multiset α) := by
  induction hole using Nat.strong_induction_on generalizing l with
  | _ hole ih =>
    rw [siftUp]
    by_cases h0 : hole = 0
    · simp [h0]
    · simp only [h0, dite_false]
      set p := parentIdx hole with hp
      have hplt : p < hole := parentIdx_lt (by omega)
      by_cases hc : comp (l.getD p default) v
      · rw [if_pos hc]
        set pv := l.getD p default with hpv
        have hpl : p < (l.set hole pv).length := by
          simp; omega
        rw [ih p hplt _ hpl]
        have hpne : hole ≠ p := by omega
        have hgd : (l.set hole pv).getD p default = pv :=
          getD_set_ne l hole p pv default hpne
        have e1 : ((((l.set hole pv).set p v : List α)) : Multiset α)
            = v ::ₘ ((↑(l.set hole pv) : Multiset α)).erase pv := by
          rw [mset_set (l.set hole pv) p v default hpl, hgd]
        have e2 : ((l.set hole pv : List α) : Multiset α)
            = pv ::ₘ (↑l : Multiset α).erase (l.getD hole default) :=
          mset_set l hole pv default hh
        have e3 : ((l.set hole v : List α) : Multiset α)
            = v ::ₘ (↑l : Multiset α).erase (l.getD hole default) :=
          mset_set l hole v default hh
        rw [e1, e2, Multiset.erase_cons_head, e3]
      · rw [if_neg hc]

lemma siftUp_isHeap (Hasym : CompAsym comp) (Hneg : CompNegTrans comp)
    (l : List α) (hole : Nat) (v : α)
    (hh : hole < l.length)
    (H1 : HeapExcept comp l hole) (H2 : UpOK comp l hole v) :
    IsHeap comp (siftUp comp l hole v) := by
  induction hole using Nat.strong_induction_on generalizing l with
  | _ hole ih =>
    rw [siftUp]
    by_cases h0 : hole = 0
    · subst h0
      simp only [dite_true]
      intro i h1 hi
      rw [List.length_set] at hi
      have hine : i ≠ 0 := by omega
      rw [getD_set_ne l 0 i v default (fun h => hine h.symm)]
      by_cases hpi : parentIdx i = 0
      · rw [hpi, getD_set_self l 0 v default (by omega)]
        exact (H2 i h1 hi hpi).1
      · rw [getD_set_ne l 0 (parentIdx i) v default (fun h => hpi h.symm)]
        exact H1 i h1 hi hine hpi
    · simp only [h0, dite_false]
      set p := parentIdx hole with hp
      have hplt : p < hole := parentIdx_lt (by omega)
      by_cases hc : comp (l.getD p default) v
      · rw [if_pos hc]
        set pv := l.getD p default with hpv
        set l2 := l.set hole pv with hl2
        have hlen2 : l2.length = l.length := by simp [hl2]
        have hg_hole : l2.getD hole default = pv :=
          getD_set_self l hole pv default hh
        have hg_ne : ∀ {k : Nat}, k ≠ hole →
            l2.getD k default = l.getD k default :=
          fun {k} hk => getD_set_ne l hole k pv default (fun h => hk h.symm)
        -- the pair (p, parent p) of H1, used twice below
        have hpairp : 1 ≤ p → comp (l.getD (parentIdx p) default)
            (l.getD p default) = false := by
          intro hp1
          have hpp : parentIdx p < p := parentIdx_lt hp1
          exact H1 p hp1 (by omega) (by omega) (by omega)
        -- any j with parent j = p, j ≠ hole has comp (l p) (l j) = false
        have hsib : ∀ j, 1 ≤ j → j < l.length → parentIdx j = p → j ≠ hole →
            comp (l.getD p default) (l.getD j default) = false := by
          intro j h1 hj hpj hjh
          by_cases hjhole : parentIdx j = hole
          · rw [hpj] at hjhole; omega
          · rw [← hpj]
            exact H1 j h1 hj hjh hjhole
        apply ih p hplt l2 (by omega)
        · -- HeapExcept l2 p
          intro i h1 hi hip hpip
          rw [hlen2] at hi
          by_cases hih : i = hole
          · exfalso; apply hpip; rw [hih, ← hp]
          · rw [hg_ne hih]
            by_cases hpih : parentIdx i = hole
            · -- i is a child of the old hole; use the grandparent clause
              rw [hpih, hg_hole, hpv]
              have := (H2 i h1 hi hpih).2 (by omega)
              rw [← hp] at this
              exact this
            · rw [hg_ne hpih]
              exact H1 i h1 hi hih hpih
        · -- UpOK l2 p v
          intro j h1 hj hpj
          rw [hlen2] at hj
          constructor
          · by_cases hjh : j = hole
            · rw [hjh, hg_hole]
              exact Hasym _ _ hc
            · rw [hg_ne hjh]
              have hpj2 := hsib j h1 hj hpj hjh
              cases hvj : comp v (l.getD j default) with
              | false => rfl
              | true =>
                have := comp_trans comp Hasym Hneg hc hvj
                rw [this] at hpj2
                exact absurd hpj2 (by simp)
          · intro hp1
            have hppne : parentIdx p ≠ hole := by
              have : parentIdx p < p := parentIdx_lt hp1; omega
            rw [hg_ne hppne]
            by_cases hjh : j = hole
            · rw [hjh, hg_hole, hpv]
              exact hpairp hp1
            · rw [hg_ne hjh]
              exact Hneg _ _ _ (hpairp hp1) (hsib j h1 hj hpj hjh)
      · rw [if_neg hc]
        intro i h1 hi
        rw [List.length_set] at hi
        by_cases hih : i = hole
        · rw [hih, getD_set_self l hole v default hh]
          have hpne : hole ≠ parentIdx hole := by
            have : parentIdx hole < hole := parentIdx_lt (by omega)
            omega
          rw [getD_set_ne l hole (parentIdx hole) v default hpne, ← hp]
          simp only [Bool.not_eq_true] at hc
          exact hc
        · rw [getD_set_ne l hole i v default (fun h => hih h.symm)]
          by_cases hpih : parentIdx i = hole
          · rw [hpih, getD_set_self l hole v default hh]
            exact (H2 i h1 hi hpih).1
          · rw [getD_set_ne l hole (parentIdx i) v default
              (fun h => hpih h.symm)]
            exact H1 i h1 hi hih hpih

lemma parentIdx_double_one (h : Nat) : parentIdx (2 * h + 1) = h := by
  unfold parentIdx; omega

lemma parentIdx_double_two (h : Nat) : parentIdx (2 * h + 2) = h := by
  unfold parentIdx; omega

lemma adjustDown_spec (Hasym : CompAsym comp) (Hneg : CompNegTrans comp)
    (l : List α) (hole len : Nat) :
    len = l.length → hole < len → IsHeap comp l →
    IsHeap comp (adjustDown comp l hole len).1 ∧
    (adjustDown comp l hole len).2 < len ∧
    (adjustDown comp l hole len).1.length = l.length ∧
    len ≤ 2 * (adjustDown comp l hole len).2 + 1 := by
  induction l, hole, len using adjustDown.induct comp with
  | case1 l hole len h r c ih =>
    intro hlen hh hl
    have hr : r = 2 * hole + 2 := rfl
    have hcdef : c = if comp (l.getD r default) (l.getD (r - 1) default)
             then r - 1 else r := rfl
    have hcb : 2 * hole + 1 ≤ c ∧ c ≤ 2 * hole + 2 := by
      rw [hcdef, hr]; split <;> omega
    have hclen : c < len := by omega
    have hpc : parentIdx c = hole := by
      rcases hcb with ⟨h1, h2⟩
      rcases (by omega : c = 2 * hole + 1 ∨ c = 2 * hole + 2) with h | h
      · rw [h]; exact parentIdx_double_one hole
      · rw [h]; exact parentIdx_double_two hole
    have hstep : adjustDown comp l hole len
        = adjustDown comp (l.set hole (l.getD c default)) c len := by
      rw [adjustDown]
      simp only [dif_pos h]
      rfl
    have hheap2 : IsHeap comp (l.set hole (l.getD c default)) := by
      intro i h1 hi
      rw [List.length_set] at hi
      have hchole : comp (l.getD hole default) (l.getD c default) = false := by
        have := hl c (by omega) (by omega)
        rw [hpc] at this
        exact this
      by_cases hih : i = hole
      · rw [hih, getD_set_self l hole _ default (by omega)]
        have hh1 : 1 ≤ hole := by omega
        have hphole : parentIdx hole < hole := parentIdx_lt hh1
        rw [getD_set_ne l hole (parentIdx hole) _ default (by omega)]
        exact Hneg _ _ _ (hl hole hh1 (by omega)) hchole
      · rw [getD_set_ne l hole i _ default (fun hq => hih hq.symm)]
        by_cases hpih : parentIdx i = hole
        · rw [hpih, getD_set_self l hole _ default (by omega)]
          rcases parentIdx_child_bounds h1 hpih with hcase | hcase
          · -- i = 2*hole+1 = r - 1
            rw [hcdef]
            by_cases hcmp : comp (l.getD r default) (l.getD (r - 1) default)
            · rw [if_pos hcmp]
              have : r - 1 = i := by omega
              rw [this]
              exact comp_irrefl comp Hasym _
            · rw [if_neg hcmp]
              have : r - 1 = i := by omega
              rw [← this]
              simp only [Bool.not_eq_true] at hcmp
              exact hcmp
          · -- i = 2*hole+2 = r
            rw [hcdef]
            by_cases hcmp : comp (l.getD r default) (l.getD (r - 1) default)
            · rw [if_pos hcmp]
              have : r = i := by omega
              rw [← this]
              exact Hasym _ _ hcmp
            · rw [if_neg hcmp]
              have : r = i := by omega
              rw [this]
              exact comp_irrefl comp Hasym _
        · rw [getD_set_ne l hole (parentIdx i) _ default
            (fun hq => hpih hq.symm)]
          exact hl i h1 hi
    have := ih (by simp; omega) hclen hheap2
    rw [hstep]
    refine ⟨this.1, this.2.1, ?_, this.2.2.2⟩
    rw [this.2.2.1, List.length_set]
  | case2 l hole len h htail =>
    intro hlen hh hl
    have hstep : adjustDown comp l hole len
        = (l.set hole (l.getD (2 * hole + 1) default), 2 * hole + 1) := by
      rw [adjustDown]
      simp only [dif_neg h, if_pos htail]
    rw [hstep]
    have hidx : 2 * hole + 1 < len := by omega
    refine ⟨?_, hidx, by simp, by omega⟩
    intro i h1 hi
    rw [List.length_set] at hi
    have hpc : parentIdx (2 * hole + 1) = hole := parentIdx_double_one hole
    have hchole : comp (l.getD hole default)
        (l.getD (2 * hole + 1) default) = false := by
      have := hl (2 * hole + 1) (by omega) (by omega)
      rw [hpc] at this
      exact this
    by_cases hih : i = hole
    · rw [hih, getD_set_self l hole _ default (by omega)]
      have hh1 : 1 ≤ hole := by omega
      have hphole : parentIdx hole < hole := parentIdx_lt hh1
      rw [getD_set_ne l hole (parentIdx hole) _ default (by omega)]
      exact Hneg _ _ _ (hl hole hh1 (by omega)) hchole
    · rw [getD_set_ne l hole i _ default (fun hq => hih hq.symm)]
      by_cases hpih : parentIdx i = hole
      · rw [hpih, getD_set_self l hole _ default (by omega)]
        rcases parentIdx_child_bounds h1 hpih with hcase | hcase
        · rw [hcase]
          exact comp_irrefl comp Hasym _
        · -- i = 2*hole+2 = len, impossible since i < len
          exfalso; omega
      · rw [getD_set_ne l hole (parentIdx i) _ default
          (fun hq => hpih hq.symm)]
        exact hl i h1 hi
  | case3 l hole len h htail =>
    intro hlen hh hl
    have hstep : adjustDown comp l hole len = (l, hole) := by
      rw [adjustDown]
      simp only [dif_neg h, if_neg htail]
    rw [hstep]
    exact ⟨hl, hh, rfl, by omega⟩

lemma adjustDown_mset [DecidableEq α] (l : List α) (hole len : Nat) :
    len = l.length → hole < len →
    ∀ x, (((adjustDown comp l hole len).1.set
            (adjustDown comp l hole len).2 x : List α) : Multiset α)
          = ((l.set hole x : List α) : Multiset α) := by
  induction l, hole, len using adjustDown.induct comp with
  | case1 l hole len h r c ih =>
    intro hlen hh x
    have hr : r = 2 * hole + 2 := rfl
    have hcdef : c = if comp (l.getD r default) (l.getD (r - 1) default)
             then r - 1 else r := rfl
    have hcb : 2 * hole + 1 ≤ c ∧ c ≤ 2 * hole + 2 := by
      rw [hcdef, hr]; split <;> omega
    have hclen : c < len := by omega
    have hstep : adjustDown comp l hole len
        = adjustDown comp (l.set hole (l.getD c default)) c len := by
      rw [adjustDown]
      simp only [dif_pos h]
      rfl
    rw [hstep, ih (by simp; omega) hclen x]
    set lc := l.getD c default with hlc
    have hgd : (l.set hole lc).getD c default = lc :=
      getD_set_ne l hole c lc default (by omega)
    have e1 : (((l.set hole lc).set c x : List α) : Multiset α)
        = x ::ₘ ((↑(l.set hole lc) : Multiset α)).erase lc := by
      rw [mset_set (l.set hole lc) c x default (by simp; omega), hgd]
    have e2 : ((l.set hole lc : List α) : Multiset α)
        = lc ::ₘ (↑l : Multiset α).erase (l.getD hole default) :=
      mset_set l hole lc default (by omega)
    have e3 : ((l.set hole x : List α) : Multiset α)
        = x ::ₘ (↑l : Multiset α).erase (l.getD hole default) :=
      mset_set l hole x default (by omega)
    rw [e1, e2, Multiset.erase_cons_head, e3]
  | case2 l hole len h htail =>
    intro hlen hh x
    have hstep : adjustDown comp l hole len
        = (l.set hole (l.getD (2 * hole + 1) default), 2 * hole + 1) := by
      rw [adjustDown]
      simp only [dif_neg h, if_pos htail]
    rw [hstep]
    set lc := l.getD (2 * hole + 1) default with hlc
    have hidx : 2 * hole + 1 < len := by omega
    have hgd : (l.set hole lc).getD (2 * hole + 1) default = lc :=
      getD_set_ne l hole (2 * hole + 1) lc default (by omega)
    have e1 : (((l.set hole lc).set (2 * hole + 1) x : List α) : Multiset α)
        = x ::ₘ ((↑(l.set hole lc) : Multiset α)).erase lc := by
      rw [mset_set (l.set hole lc) (2 * hole + 1) x default (by simp; omega),
        hgd]
    have e2 : ((l.set hole lc : List α) : Multiset α)
        = lc ::ₘ (↑l : Multiset α).erase (l.getD hole default) :=
      mset_set l hole lc default (by omega)
    have e3 : ((l.set hole x : List α) : Multiset α)
        = x ::ₘ (↑l : Multiset α).erase (l.getD hole default) :=
      mset_set l hole x default (by omega)
    rw [e1, e2, Multiset.erase_cons_head, e3]
  | case3 l hole len h htail =>
    intro hlen hh x
    have hstep : adjustDown comp l hole len = (l, hole) := by
      rw [adjustDown]
      simp only [dif_neg h, if_neg htail]
    rw [hstep]

lemma getD_append_self (l : List α) (x d : α) :
    (l ++ [x]).getD l.length d = x := by
  simp [List.getD_eq_getElem?_getD, List.getElem?_append]

lemma heapPush_isHeap (Hasym : CompAsym comp) (Hneg : CompNegTrans comp)
    (l : List α) (x : α) (hl : IsHeap comp l) :
    IsHeap comp (heapPush comp l x) := by
  apply siftUp_isHeap comp Hasym Hneg _ _ _ (by simp)
  · intro i h1 hi hine hpne
    rw [List.length_append] at hi
    have hi' : i < l.length := by
      simp only [List.length_singleton] at hi
      omega
    have hpi : parentIdx i < l.length :=
      lt_trans (parentIdx_lt h1) hi'
    rw [getD_append_left l [x] default hi', getD_append_left l [x] default hpi]
    exact hl i h1 hi'
  · intro j h1 hj hpj
    exfalso
    rw [List.length_append, List.length_singleton] at hj
    have := parentIdx_child_bounds h1 hpj
    omega

lemma heapPush_mset [DecidableEq α] (l : List α) (x : α) :
    ((heapPush comp l x : List α) : Multiset α) = x ::ₘ (↑l : Multiset α) := by
  rw [heapPush, siftUp_mset comp _ _ _ (by simp)]
  rw [mset_set (l ++ [x]) l.length x default (by simp)]
  rw [getD_append_self l x default]
  have : ((↑(l ++ [x]) : Multiset α)) = x ::ₘ (↑l : Multiset α) := by simp
  rw [this, Multiset.erase_cons_head]

lemma heapPop_spec [DecidableEq α] (Hasym : CompAsym comp)
    (Hneg : CompNegTrans comp) (l : List α) (hne : l ≠ [])
    (hl : IsHeap comp l) :
    ∃ l', heapPop comp l = some (l.getD 0 default, l')
      ∧ IsHeap comp l'
      ∧ (↑l : Multiset α) = l.getD 0 default ::ₘ (↑l' : Multiset α)
      ∧ l'.length = l.length - 1 := by
  match l with
  | [] => exact absurd rfl hne
  | [a] =>
    refine ⟨[], rfl, isHeap_nil comp, ?_, rfl⟩
    rfl
  | x :: y :: rest =>
    set l0 : List α := x :: y :: rest with hl0
    set n := l0.length with hn
    have hn2 : 2 ≤ n := by
      rw [hn, hl0]
      simp only [List.length_cons]
      omega
    set v := l0.getD (n - 1) default with hv
    set pre := l0.take (n - 1) with hpre
    have hprelen : pre.length = n - 1 := by
      rw [hpre, List.length_take]
      omega
    have hpreheap : IsHeap comp pre := by
      intro i h1 hi
      rw [hprelen] at hi
      have hpi : parentIdx i < n - 1 := lt_trans (parentIdx_lt h1) hi
      rw [getD_take l0 default hi, getD_take l0 default hpi]
      exact hl i h1 (by omega)
    have had := adjustDown_spec comp Hasym Hneg pre 0 (n - 1)
      hprelen.symm (by omega) hpreheap
    set ad := adjustDown comp pre 0 (n - 1) with hadval
    obtain ⟨hheap1, h2lt, hlen1, hchild⟩ := had
    have hadm := adjustDown_mset comp pre 0 (n - 1) hprelen.symm (by omega)
    have hh2 : ad.2 < ad.1.length := by rw [hlen1, hprelen]; exact h2lt
    have hfin_heap : IsHeap comp (siftUp comp ad.1 ad.2 v) := by
      apply siftUp_isHeap comp Hasym Hneg _ _ _ hh2
      · intro i h1 hi hine hpne
        exact hheap1 i h1 hi
      · intro j h1 hj hpj
        exfalso
        rw [hlen1, hprelen] at hj
        have := parentIdx_child_bounds h1 hpj
        omega
    have hfin_mset : ((siftUp comp ad.1 ad.2 v : List α) : Multiset α)
        = v ::ₘ (↑pre : Multiset α).erase (pre.getD 0 default) := by
      rw [siftUp_mset comp _ _ _ hh2, hadm v,
        mset_set pre 0 v default (by omega)]
    have hx0 : pre.getD 0 default = l0.getD 0 default :=
      getD_take l0 default (by omega)
    have hx0' : l0.getD 0 default = x := by rw [hl0]; rfl
    have hsplit : l0 = pre ++ [v] := take_getD_last l0 (by omega)
    refine ⟨siftUp comp ad.1 ad.2 v, ?_, hfin_heap, ?_, ?_⟩
    · rfl
    · -- multiset bookkeeping
      have hxmem : x ∈ (↑pre : Multiset α) := by
        rw [← hx0', ← hx0]
        exact getD_mem pre default (by omega)
      have hmsetl0 : ((l0 : List α) : Multiset α)
          = v ::ₘ (↑pre : Multiset α) := by
        conv_lhs => rw [hsplit]
        simp
      rw [hx0', hfin_mset, hmsetl0, ← hx0', ← hx0]
      rw [Multiset.cons_swap]
      congr 1
      rw [Multiset.cons_erase]
      rw [hx0, hx0']
      exact hxmem
    · rw [siftUp_length, hlen1, hprelen]

lemma heapPopAllAux_spec [DecidableEq α] (Hasym : CompAsym comp)
    (Hneg : CompNegTrans comp) :
    ∀ fuel (l : List α), IsHeap comp l → l.length ≤ fuel →
      List.Pairwise (fun a b => comp a b = false) (heapPopAllAux comp fuel l)
        ∧ ((heapPopAllAux comp fuel l : List α) : Multiset α)
            = (↑l : Multiset α) := by
  intro fuel
  induction fuel with
  | zero =>
    intro l hl hlen
    have : l = [] := List.eq_nil_of_length_eq_zero (by omega)
    subst this
    exact ⟨List.Pairwise.nil, rfl⟩
  | succ f ih =>
    intro l hl hlen
    by_cases hne : l = []
    · subst hne
      exact ⟨List.Pairwise.nil, rfl⟩
    · obtain ⟨l', hpop, hheap', hmset', hlen'⟩ :=
        heapPop_spec comp Hasym Hneg l hne hl
      have hstep : heapPopAllAux comp (f + 1) l
          = l.getD 0 default :: heapPopAllAux comp f l' := by
        rw [heapPopAllAux, hpop]
      obtain ⟨hpw, hms⟩ := ih l' hheap' (by omega)
      rw [hstep]
      constructor
      · apply List.Pairwise.cons
        · intro z hz
          have hz' : z ∈ (↑l' : Multiset α) := by
            rw [← hms]
            exact hz
          have hzl : z ∈ l := by
            have : z ∈ (↑l : Multiset α) := by
              rw [hmset']
              exact Multiset.mem_cons_of_mem hz'
            exact this
          exact isHeap_root_le_mem comp Hasym Hneg l hl z hzl
        · exact hpw
      · rw [show ((↑(l.getD 0 default :: heapPopAllAux comp f l') : Multiset α))
          = l.getD 0 default ::ₘ ↑(heapPopAllAux comp f l') from rfl]
        rw [hms, ← hmset']

/-- `std::priority_queue` drained by `top()`/`pop()`: output is sorted by the
comparator and is a permutation of the heap contents. -/
lemma heapPopAll_spec [DecidableEq α] (Hasym : CompAsym comp)
    (Hneg : CompNegTrans comp) (l : List α) (hl : IsHeap comp l) :
    List.Pairwise (fun a b => comp a b = false) (heapPopAll comp l)
      ∧ ((heapPopAll comp l : List α) : Multiset α) = (↑l : Multiset α) :=
  heapPopAllAux_spec comp Hasym Hneg l.length l hl le_rfl

/-- Folding `push` over a list of inserts yields a heap. -/
lemma foldl_heapPush_isHeap (Hasym : CompAsym comp) (Hneg : CompNegTrans comp)
    (ts : List α) :
    ∀ l0, IsHeap comp l0 → IsHeap comp (ts.foldl (heapPush comp) l0) := by
  induction ts with
  | nil => intro l0 h; exact h
  | cons a t ih =>
    intro l0 h
    rw [List.foldl_cons]
    exact ih _ (heapPush_isHeap comp Hasym Hneg l0 a h)

lemma foldl_heapPush_mset [DecidableEq α] (ts : List α) :
    ∀ l0, ((ts.foldl (heapPush comp) l0 : List α) : Multiset α)
        = (↑ts : Multiset α) + (↑l0 : Multiset α) := by
  induction ts with
  | nil => intro l0; simp
  | cons a t ih =>
    intro l0
    rw [List.foldl_cons, ih (heapPush comp l0 a), heapPush_mset comp l0 a]
    rw [show ((↑(a :: t) : Multiset α)) = a ::ₘ ↑t from rfl]
    rw [Multiset.add_cons, Multiset.cons_add]

end PriorityQueueProofs


/-! ## Association-list lemmas -/

section AlistLemmas

variable {β : Type}

lemma alistLookup_set_self (m : List (String × β)) (k : String) (v : β) :
    alistLookup (alistSet m k v) k = some v := by
  induction m with
  | nil => simp [alistSet, alistLookup]
  | cons p rest ih =>
    by_cases hk : p.1 = k
    · simp [alistSet, alistLookup, hk]
    · simp only [alistSet, alistLookup]
      rw [if_neg hk]
      simp only [alistLookup]
      rw [if_neg hk]
      exact ih

lemma alistLookup_set_ne (m : List (String × β)) (k k2 : String) (v : β)
    (h : k ≠ k2) :
    alistLookup (alistSet m k v) k2 = alistLookup m k2 := by
  induction m with
  | nil => simp [alistSet, alistLookup, h]
  | cons p rest ih =>
    by_cases hk : p.1 = k
    · simp only [alistSet]
      rw [if_pos hk]
      simp only [alistLookup]
      rw [if_neg (by rw [hk]; exact h), if_neg (by rw [hk]; exact h)]
    · simp only [alistSet]
      rw [if_neg hk]
      simp only [alistLookup]
      by_cases hk2 : p.1 = k2
      · rw [if_pos hk2, if_pos hk2]
      · rw [if_neg hk2, if_neg hk2]
        exact ih

lemma alistLookup_none_iff (m : List (String × β)) (k : String) :
    alistLookup m k = none ↔ k ∉ m.map Prod.fst := by
  induction m with
  | nil => simp [alistLookup]
  | cons p rest ih =>
    simp only [alistLookup, List.map_cons, List.mem_cons]
    by_cases hk : p.1 = k
    · rw [if_pos hk]
      simp [hk]
    · rw [if_neg hk]
      rw [ih]
      constructor
      · intro hnot hmem
        rcases hmem with hmem | hmem
        · exact hk hmem.symm
        · exact hnot hmem
      · intro hnot hmem
        exact hnot (Or.inr hmem)

end AlistLemmas

/-! ## Claim C2 (StockRanker purchase, positive quantity) -/

/-- Claim C2: with `qty > 0`, `purchase` fails exactly when the item is
unknown or `qty` exceeds the current quantity; a failure leaves the whole
state unchanged; a success decrements the item's quantity by exactly `qty`,
touches no other item, and appends exactly one sale record with
profit `qty * price`. -/
theorem claim_C2_purchase (st : CartState) (name : String) (qty : Int)
    (hq : 0 < qty) :
    ((purchase st name qty).2 = false ↔
      alistLookup st.stock name = none ∨
        ∃ s, alistLookup st.stock name = some s ∧ s.quantity < qty)
    ∧ ((purchase st name qty).2 = false → purchase st name qty = (st, false))
    ∧ (∀ s, alistLookup st.stock name = some s → qty ≤ s.quantity →
        (purchase st name qty).2 = true
        ∧ alistLookup (purchase st name qty).1.stock name
            = some { s with quantity := s.quantity - qty }
        ∧ (∀ n2, n2 ≠ name → alistLookup (purchase st name qty).1.stock n2
            = alistLookup st.stock n2)
        ∧ (purchase st name qty).1.salesHistory
            = st.salesHistory ++ [(name, qty * s.price)]) := by
  cases hlook : alistLookup st.stock name with
  | none =>
    have hres : purchase st name qty = (st, false) := by
      simp [purchase, hlook]
    refine ⟨?_, ?_, ?_⟩
    · rw [hres]
      simp
    · intro _
      exact hres
    · intro s hs
      exact absurd hs (by simp)
  | some s0 =>
    by_cases hq2 : qty ≤ s0.quantity
    · have hres : purchase st name qty
          = ({ stock := alistSet st.stock name
                  { s0 with quantity := s0.quantity - qty },
               salesHistory := st.salesHistory ++ [(name, qty * s0.price)] },
             true) := by
        simp [purchase, hlook, if_pos hq2]
      refine ⟨?_, ?_, ?_⟩
      · rw [hres]
        simp
        omega
      · intro h
        rw [hres] at h
        exact absurd h (by simp)
      · intro s hs hqs
        injection hs with hs
        subst hs
        refine ⟨?_, ?_, ?_, ?_⟩
        · rw [hres]
        · rw [hres]
          exact alistLookup_set_self st.stock name _
        · intro n2 hn2
          rw [hres]
          exact alistLookup_set_ne st.stock name n2 _ (fun h => hn2 h.symm)
        · rw [hres]
    · have hres : purchase st name qty = (st, false) := by
        simp [purchase, hlook, if_neg hq2]
      refine ⟨?_, ?_, ?_⟩
      · rw [hres]
        constructor
        · intro _
          exact Or.inr ⟨s0, rfl, by omega⟩
        · intro _
          rfl
      · intro _
        exact hres
      · intro s hs hqs
        injection hs with hs
        subst hs
        omega

/-- Witness for C2: on the seed stock, `purchase("Kurkure", 3)` succeeds,
sets the quantity to 7 and appends `("Kurkure", 45)`. -/
theorem claim_C2_purchase_witness :
    (0 : Int) < 3
    ∧ (((purchase ⟨seedStock, []⟩ "Kurkure" 3).2 = false ↔
      alistLookup seedStock "Kurkure" = none ∨
        ∃ s, alistLookup seedStock "Kurkure" = some s ∧ s.quantity < 3)
    ∧ ((purchase ⟨seedStock, []⟩ "Kurkure" 3).2 = false →
        purchase ⟨seedStock, []⟩ "Kurkure" 3 = (⟨seedStock, []⟩, false))
    ∧ (∀ s, alistLookup seedStock "Kurkure" = some s → 3 ≤ s.quantity →
        (purchase ⟨seedStock, []⟩ "Kurkure" 3).2 = true
        ∧ alistLookup (purchase ⟨seedStock, []⟩ "Kurkure" 3).1.stock "Kurkure"
            = some { s with quantity := s.quantity - 3 }
        ∧ (∀ n2, n2 ≠ "Kurkure" →
            alistLookup (purchase ⟨seedStock, []⟩ "Kurkure" 3).1.stock n2
              = alistLookup seedStock n2)
        ∧ (purchase ⟨seedStock, []⟩ "Kurkure" 3).1.salesHistory
            = [] ++ [("Kurkure", 3 * s.price)])) :=
  ⟨by decide, claim_C2_purchase ⟨seedStock, []⟩ "Kurkure" 3 (by decide)⟩

/-! ## Claim C10 (StockRanker purchase, non-positive quantity) -/

/-- Claim C10: for a known item, `purchase` with `qty ≤ 0` succeeds whenever
`qty ≤ quantity` (which for non-positive `qty` is the same stock test the
code runs), sets the quantity to `quantity - qty` (an increase for negative
`qty`) and appends one record with profit `qty * price` (negative for
negative `qty`). -/
theorem claim_C10_nonpositive_purchase (st : CartState) (name : String)
    (qty : Int) (s : Snack) (hq : qty ≤ 0)
    (hlook : alistLookup st.stock name = some s)
    (hqty : qty ≤ s.quantity) :
    (purchase st name qty).2 = true
    ∧ alistLookup (purchase st name qty).1.stock name
        = some { s with quantity := s.quantity - qty }
    ∧ (purchase st name qty).1.salesHistory
        = st.salesHistory ++ [(name, qty * s.price)] := by
  refine ⟨?_, ?_, ?_⟩
  · simp [purchase, hlook, if_pos hqty]
  · simp only [purchase, hlook, if_pos hqty]
    exact alistLookup_set_self st.stock name _
  · simp [purchase, hlook, if_pos hqty]

/-- Witness for C10: buying -3 Kurkure "succeeds", raising the stock to 13
and recording profit -45. -/
theorem claim_C10_witness :
    ((-3 : Int) ≤ 0
      ∧ alistLookup seedStock "Kurkure" = some ⟨"Kurkure", 10, 15, "2025-09-01"⟩
      ∧ (-3 : Int) ≤ (10 : Int))
    ∧ ((purchase ⟨seedStock, []⟩ "Kurkure" (-3)).2 = true
      ∧ alistLookup (purchase ⟨seedStock, []⟩ "Kurkure" (-3)).1.stock "Kurkure"
          = some ⟨"Kurkure", 13, 15, "2025-09-01"⟩
      ∧ (purchase ⟨seedStock, []⟩ "Kurkure" (-3)).1.salesHistory
          = [] ++ [("Kurkure", -45)]) :=
  ⟨⟨by decide, by decide, by decide⟩, by
    have := claim_C10_nonpositive_purchase ⟨seedStock, []⟩ "Kurkure" (-3)
      ⟨"Kurkure", 10, 15, "2025-09-01"⟩ (by decide) (by decide) (by decide)
    refine ⟨this.1, ?_, ?_⟩
    · rw [this.2.1]
      rfl
    · rw [this.2.2]
      rfl⟩


/-! ## Claim C3 (IntervalBooker) -/

/-- Claim C3: with `start < end`, booking fails exactly when `[start,end)`
overlaps a stored interval under the code's test
`!(end <= s.first || start >= s.second)`; on success the interval is
appended (hence retrievable); on conflict the slot list is unchanged. -/
theorem claim_C3_booking (slots : List (Int × Int)) (s e : Int)
    (hlt : s < e) :
    ((bookSlot slots s e).2 = false ↔
        ∃ p ∈ slots, ¬(e ≤ p.1 ∨ s ≥ p.2))
    ∧ ((bookSlot slots s e).2 = true →
        (bookSlot slots s e).1 = slots ++ [(s, e)]
          ∧ (s, e) ∈ (bookSlot slots s e).1)
    ∧ ((bookSlot slots s e).2 = false → (bookSlot slots s e).1 = slots) := by
  have hiff : (slots.any
        (fun se => !(decide (e ≤ se.1) || decide (s ≥ se.2)))) = true
      ↔ ∃ p ∈ slots, ¬(e ≤ p.1 ∨ s ≥ p.2) := by
    rw [List.any_eq_true]
    constructor
    · rintro ⟨p, hp, hf⟩
      refine ⟨p, hp, ?_⟩
      simp only [Bool.not_eq_true', Bool.or_eq_false_iff,
        decide_eq_false_iff_not] at hf
      rw [not_or]
      exact hf
    · rintro ⟨p, hp, hf⟩
      refine ⟨p, hp, ?_⟩
      rw [not_or] at hf
      simp only [Bool.not_eq_true', Bool.or_eq_false_iff,
        decide_eq_false_iff_not]
      exact hf
  by_cases hcl : (slots.any
      (fun se => !(decide (e ≤ se.1) || decide (s ≥ se.2)))) = true
  · have hres : bookSlot slots s e = (slots, false) := by
      simp only [bookSlot]
      rw [if_pos hcl]
    refine ⟨?_, ?_, ?_⟩
    · rw [hres]
      exact ⟨fun _ => hiff.mp hcl, fun _ => rfl⟩
    · intro h
      rw [hres] at h
      exact absurd h (by simp)
    · intro _
      rw [hres]
  · have hres : bookSlot slots s e = (slots ++ [(s, e)], true) := by
      simp only [bookSlot]
      rw [if_neg hcl]
    refine ⟨?_, ?_, ?_⟩
    · rw [hres]
      exact ⟨fun h => absurd h (by simp),
        fun hex => absurd (hiff.mpr hex) hcl⟩
    · intro _
      rw [hres]
      exact ⟨rfl, by simp⟩
    · intro h
      rw [hres] at h
      exact absurd h (by simp)

/-- Witness for C3 on the seed slots: booking [12,13) succeeds and is
retrievable; the overlap characterisation holds. -/
theorem claim_C3_booking_witness :
    (12 : Int) < 13
    ∧ (((bookSlot seedSlots 12 13).2 = false ↔
        ∃ p ∈ seedSlots, ¬((13 : Int) ≤ p.1 ∨ (12 : Int) ≥ p.2))
    ∧ ((bookSlot seedSlots 12 13).2 = true →
        (bookSlot seedSlots 12 13).1 = seedSlots ++ [(12, 13)]
          ∧ ((12 : Int), (13 : Int)) ∈ (bookSlot seedSlots 12 13).1)
    ∧ ((bookSlot seedSlots 12 13).2 = false →
        (bookSlot seedSlots 12 13).1 = seedSlots)) :=
  ⟨by decide, claim_C3_booking seedSlots 12 13 (by decide)⟩

/-! ## Claim C7 (StockRanker profitReport) -/

lemma insertByProfitDesc_mset (x : String × Int) (l : List (String × Int)) :
    ((insertByProfitDesc x l : List (String × Int)) : Multiset (String × Int))
      = x ::ₘ (↑l : Multiset (String × Int)) := by
  induction l with
  | nil => rfl
  | cons y ys ih =>
    simp only [insertByProfitDesc]
    by_cases h : x.2 > y.2
    · rw [if_pos h]
      rfl
    · rw [if_neg h]
      rw [show ((↑(y :: insertByProfitDesc x ys) :
            Multiset (String × Int)))
          = y ::ₘ ↑(insertByProfitDesc x ys) from rfl]
      rw [ih, Multiset.cons_swap]
      rfl

lemma mem_insertByProfitDesc (z x : String × Int) (l : List (String × Int)) :
    z ∈ insertByProfitDesc x l ↔ z = x ∨ z ∈ l := by
  have := insertByProfitDesc_mset x l
  constructor
  · intro hz
    have : z ∈ x ::ₘ (↑l : Multiset (String × Int)) := by
      rw [← this]
      exact hz
    rcases Multiset.mem_cons.mp this with h | h
    · exact Or.inl h
    · exact Or.inr h
  · intro hz
    have hmem : z ∈ x ::ₘ (↑l : Multiset (String × Int)) := by
      rcases hz with h | h
      · rw [h]; exact Multiset.mem_cons_self x _
      · exact Multiset.mem_cons_of_mem h
    rw [← this] at hmem
    exact hmem

lemma insertByProfitDesc_sorted (x : String × Int) (l : List (String × Int))
    (hl : List.Pairwise (fun a b => b.2 ≤ a.2) l) :
    List.Pairwise (fun a b => b.2 ≤ a.2) (insertByProfitDesc x l) := by
  induction l with
  | nil => exact List.pairwise_singleton _ x
  | cons y ys ih =>
    simp only [insertByProfitDesc]
    rcases List.pairwise_cons.mp hl with ⟨hy, hys⟩
    by_cases h : x.2 > y.2
    · rw [if_pos h]
      refine List.Pairwise.cons ?_ hl
      intro z hz
      rcases List.mem_cons.mp hz with hzy | hzys
      · rw [hzy]; omega
      · have := hy z hzys
        omega
    · rw [if_neg h]
      refine List.Pairwise.cons ?_ (ih hys)
      intro z hz
      rcases (mem_insertByProfitDesc z x ys).mp hz with hzx | hzys
      · rw [hzx]; omega
      · exact hy z hzys

lemma sortByProfitDesc_mset (l : List (String × Int)) :
    ((sortByProfitDesc l : List (String × Int)) : Multiset (String × Int))
      = (↑l : Multiset (String × Int)) := by
  induction l with
  | nil => rfl
  | cons y ys ih =>
    rw [show sortByProfitDesc (y :: ys)
        = insertByProfitDesc y (sortByProfitDesc ys) from rfl]
    rw [insertByProfitDesc_mset, ih]
    rfl

lemma sortByProfitDesc_sorted (l : List (String × Int)) :
    List.Pairwise (fun a b => b.2 ≤ a.2) (sortByProfitDesc l) := by
  induction l with
  | nil => exact List.Pairwise.nil
  | cons y ys ih =>
    exact insertByProfitDesc_sorted y (sortByProfitDesc ys) ih

/-- Claim C7, counterexample: calling the profit branch on a history with
two out-of-order records reorders `salesHistory` in place (the code runs
`std::sort` on the global before printing), so the sequence does not equal
its pre-call value. -/
theorem claim_C7_counterexample :
    (profitReport ⟨seedStock, [("Kurkure", 10), ("Lays", 20)]⟩).1.salesHistory
      = [("Lays", 20), ("Kurkure", 10)]
    ∧ (profitReport ⟨seedStock, [("Kurkure", 10), ("Lays", 20)]⟩).1.salesHistory
      ≠ [("Kurkure", 10), ("Lays", 20)] := by
  constructor
  · rfl
  · decide

/-- Claim C7, amended: `profitReport` leaves the stock untouched and
preserves the multiset of sale records (no record is added, dropped or
edited), but it does mutate the sales-history *order*, sorting it in place
descending by profit; the printed sequence is that sorted history and the
printed total is its profit sum. -/
theorem claim_C7_profit_frame (st : CartState) :
    (profitReport st).1.stock = st.stock
    ∧ (((profitReport st).1.salesHistory : List (String × Int)) :
          Multiset (String × Int)) = (↑st.salesHistory : Multiset (String × Int))
    ∧ List.Pairwise (fun a b => b.2 ≤ a.2) (profitReport st).1.salesHistory
    ∧ (profitReport st).2.1 = (profitReport st).1.salesHistory
    ∧ (profitReport st).2.2
        = ((profitReport st).1.salesHistory).foldl (fun t p => t + p.2) 0 := by
  refine ⟨rfl, ?_, ?_, rfl, rfl⟩
  · exact sortByProfitDesc_mset st.salesHistory
  · exact sortByProfitDesc_sorted st.salesHistory


/-! ## Claim C9 (BipartiteAssigner) -/

lemma tryRooms_keys_nodup (student : String) (prefs : List String) :
    ∀ ms : List (String × String), (ms.map Prod.fst).Nodup →
      ((tryRooms student ms prefs).map Prod.fst).Nodup := by
  induction prefs with
  | nil => intro ms h; exact h
  | cons r rs ih =>
    intro ms h
    simp only [tryRooms]
    by_cases hr : (alistLookup ms r).isSome
    · rw [if_pos hr]
      exact ih ms h
    · rw [if_neg hr]
      have hnone : alistLookup ms r = none := by
        cases hx : alistLookup ms r with
        | none => rfl
        | some v => rw [hx] at hr; simp at hr
      have hnotin : r ∉ ms.map Prod.fst := (alistLookup_none_iff ms r).mp hnone
      rw [List.map_append]
      rw [List.nodup_append]
      refine ⟨h, List.nodup_singleton r, ?_⟩
      intro a ha hb
      simp only [List.map_cons, List.map_nil, List.mem_singleton] at hb
      rw [hb] at ha
      exact hnotin ha

lemma assignRooms_aux_nodup (prefs : List (String × List String)) :
    ∀ (sts : List String) (ms : List (String × String)),
      (ms.map Prod.fst).Nodup →
      ((sts.foldl (bfsMatch prefs) ms).map Prod.fst).Nodup := by
  intro sts
  induction sts with
  | nil => intro ms h; exact h
  | cons st rest ih =>
    intro ms h
    rw [List.foldl_cons]
    exact ih _ (tryRooms_keys_nodup st _ ms h)

/-- Claim C9: the greedy first-come assignment maps each room to at most one
student (the room keys of the result are pairwise distinct), for every
student order and preference table; on the seed data the result is exactly
A1 to Alice and A2 to Bob, with Charlie and Daisy unassigned. -/
theorem claim_C9_assignment :
    (∀ (students : List String) (preferences : List (String × List String)),
      ((assignRooms students preferences).map Prod.fst).Nodup)
    ∧ assignRooms seedStudents seedPreferences = [("A1", "Alice"), ("A2", "Bob")]
    ∧ alistLookup (assignRooms seedStudents seedPreferences) "A1" = some "Alice"
    ∧ alistLookup (assignRooms seedStudents seedPreferences) "A2" = some "Bob"
    ∧ (∀ p ∈ assignRooms seedStudents seedPreferences,
        p.2 ≠ "Charlie" ∧ p.2 ≠ "Daisy") := by
  refine ⟨?_, by decide, by decide, by decide, by decide⟩
  intro students preferences
  exact assignRooms_aux_nodup preferences students [] (by simp)

/-! ## Claim C8 (WindowCounter) -/

lemma prefixCounts_aux (l : List Int) :
    ∀ k : Nat, l.foldl (fun pre _ => pre ++ [pre.getLastD 0 + 1])
        (List.range (k + 1)) = List.range (k + 1 + l.length) := by
  induction l with
  | nil => intro k; simp
  | cons a t ih =>
    intro k
    rw [List.foldl_cons]
    have hlast : (List.range (k + 1)).getLastD 0 = k := by
      rw [List.range_succ]
      simp
    have hstep : List.range (k + 1) ++ [(List.range (k + 1)).getLastD 0 + 1]
        = List.range (k + 2) := by
      rw [hlast]
      rw [show List.range (k + 2) = List.range (k + 1) ++ [k + 1] from
        List.range_succ (k + 1)]
    rw [hstep, ih (k + 1)]
    congr 1
    simp only [List.length_cons]
    omega

lemma prefixCounts_eq (ts : List Int) :
    prefixCounts ts = List.range (ts.length + 1) := by
  have h := prefixCounts_aux ts 0
  rw [show List.range (0 + 1) = [0] from rfl] at h
  rw [prefixCounts, h]
  congr 1
  omega

lemma range_getD {n i : Nat} (h : i < n) : (List.range n).getD i 0 = i := by
  rw [List.getD_eq_getElem?_getD, List.getElem?_range h]
  rfl

lemma bestFold_const (ts : List Int) (w : Nat) (is : List Nat)
    (hall : ∀ i ∈ is, (prefixCounts ts).getD (i + w) 0
      - (prefixCounts ts).getD i 0 = w) :
    ∀ b : Int × Nat, b.2 = w →
      (is.foldl (fun best i =>
        if (prefixCounts ts).getD (i + w) 0
            - (prefixCounts ts).getD i 0 < best.2
        then (ts.getD i 0, (prefixCounts ts).getD (i + w) 0
            - (prefixCounts ts).getD i 0)
        else best) b).2 = w := by
  induction is with
  | nil => intro b hb; exact hb
  | cons i rest ih =>
    intro b hb
    rw [List.foldl_cons]
    have hcnt := hall i (List.mem_cons_self i rest)
    have hstep : (if (prefixCounts ts).getD (i + w) 0
          - (prefixCounts ts).getD i 0 < b.2
        then (ts.getD i 0, (prefixCounts ts).getD (i + w) 0
          - (prefixCounts ts).getD i 0) else b) = b := by
      rw [hcnt, hb]
      simp
    simp only at hstep ⊢
    rw [hstep]
    exact ih (fun j hj => hall j (List.mem_cons_of_mem i hj)) b hb

/-- Claim C8, amended: for every non-decreasing sequence of length `N ≥ W`
(`W ≥ 1`), every reported per-window count equals exactly `W` and the
reported minimum equals `W`; but when `N < W` only the per-window list is
empty — the code still prints a best-entry report whose minimum is `N`
(the initial `minQueue = entryTimes.size()`), with best time
`entryTimes[0]`. -/
theorem claim_C8_window_counts :
    (∀ (ts : List Int) (w : Nat), List.Chain' (· ≤ ·) ts → 1 ≤ w →
      w ≤ ts.length →
      (∀ rep ∈ windowReports ts w, rep.2.2 = w)
      ∧ (bestReport ts w).map Prod.snd = some w)
    ∧ (∀ (ts : List Int) (w : Nat), ts ≠ [] → ts.length < w →
      windowReports ts w = [] ∧ bestReport ts w
        = some (ts.getD 0 0, ts.length)) := by
  constructor
  · intro ts w hchain hw1 hwlen
    have hall : ∀ i ∈ List.range (ts.length + 1 - w),
        (prefixCounts ts).getD (i + w) 0 - (prefixCounts ts).getD i 0 = w := by
      intro i hi
      rw [List.mem_range] at hi
      rw [prefixCounts_eq, range_getD (by omega), range_getD (by omega)]
      omega
    constructor
    · intro rep hrep
      rw [windowReports] at hrep
      obtain ⟨i, hi, rfl⟩ := List.mem_map.mp hrep
      exact hall i hi
    · cases ts with
      | nil => simp at hwlen; omega
      | cons t0 rest =>
        set N := (t0 :: rest).length with hN
        have hbr : bestReport (t0 :: rest) w
            = some ((List.range (N + 1 - w)).foldl
              (fun best i =>
                if (prefixCounts (t0 :: rest)).getD (i + w) 0
                    - (prefixCounts (t0 :: rest)).getD i 0 < best.2
                then ((t0 :: rest).getD i 0,
                  (prefixCounts (t0 :: rest)).getD (i + w) 0
                    - (prefixCounts (t0 :: rest)).getD i 0)
                else best)
              (t0, N)) := rfl
        rw [hbr, Option.map_some']
        congr 1
        rcases (by omega : w = N ∨ w < N) with hwN | hwN
        · exact bestFold_const (t0 :: rest) w _ hall (t0, N)
            (by show N = w; omega)
        · have hsplit : List.range (N + 1 - w)
              = 0 :: List.map Nat.succ (List.range (N - w)) := by
            rw [show N + 1 - w = (N - w) + 1 from by omega]
            exact List.range_succ_eq_map (N - w)
          rw [hsplit, List.foldl_cons]
          have hc0 := hall 0 (by rw [hsplit]; exact List.mem_cons_self _ _)
          have hstep : (if (prefixCounts (t0 :: rest)).getD (0 + w) 0
                - (prefixCounts (t0 :: rest)).getD 0 0 < (t0, N).2
              then ((t0 :: rest).getD 0 0,
                (prefixCounts (t0 :: rest)).getD (0 + w) 0
                  - (prefixCounts (t0 :: rest)).getD 0 0)
              else (t0, N)) = ((t0 :: rest).getD 0 0, w) := by
            rw [hc0]
            rw [if_pos (by omega)]
          rw [hstep]
          refine bestFold_const (t0 :: rest) w _ ?_
            ((t0 :: rest).getD 0 0, w) rfl
          intro i hi
          obtain ⟨j, hj, rfl⟩ := List.mem_map.mp hi
          rw [List.mem_range] at hj
          exact hall (Nat.succ j) (by rw [List.mem_range]; omega)
  · intro ts w hne hlen
    constructor
    · rw [windowReports, show ts.length + 1 - w = 0 from by omega]
      rfl
    · cases ts with
      | nil => exact absurd rfl hne
      | cons t0 rest =>
        rw [bestReport, show (t0 :: rest).length + 1 - w = 0 from by omega]
        rfl

/-- Witness for C8 on the seed data (`entryTimes`, window 2): the sequence
is non-decreasing, 1 ≤ 2 ≤ 7, and the amended theorem applies. -/
theorem claim_C8_witness :
    (List.Chain' (· ≤ ·) seedEntryTimes ∧ 1 ≤ 2 ∧ 2 ≤ seedEntryTimes.length)
    ∧ ((∀ rep ∈ windowReports seedEntryTimes 2, rep.2.2 = 2)
      ∧ (bestReport seedEntryTimes 2).map Prod.snd = some 2) :=
  ⟨⟨by simp [seedEntryTimes, List.chain'_cons], by decide, by decide⟩,
    claim_C8_window_counts.1 seedEntryTimes 2
      (by simp [seedEntryTimes, List.chain'_cons]) (by decide) (by decide)⟩

/-- Claim C8, counterexample to "if N < W the output is empty": on the
one-element sequence [5] with window 2 the per-window list is empty, but the
code still prints a best-entry report — with minimum 1, not an empty
output. -/
theorem claim_C8_counterexample :
    windowReports [5] 2 = []
    ∧ bestReport [5] 2 = some (5, 1)
    ∧ bestReport [5] 2 ≠ none := by
  refine ⟨rfl, rfl, by decide⟩

end HostelDada

namespace HostelDada

/-! ## The two source comparators are strict weak orders -/

section Comparators

lemma keyComp_asym {α κ : Type} [LinearOrder κ] (key : α → κ) :
    CompAsym (fun a b => decide (key b < key a)) := by
  intro a b h
  simp only [decide_eq_true_eq] at h
  simp only [decide_eq_false_iff_not]
  exact lt_asymm h

lemma keyComp_negtrans {α κ : Type} [LinearOrder κ] (key : α → κ) :
    CompNegTrans (fun a b => decide (key b < key a)) := by
  intro a b c h1 h2
  simp only [decide_eq_false_iff_not, not_lt] at h1 h2 ⊢
  exact le_trans h1 h2

lemma taskComp_asym : CompAsym taskComp := keyComp_asym Task.urgency

lemma taskComp_negtrans : CompNegTrans taskComp := keyComp_negtrans Task.urgency

lemma charLexLt_irrefl : ∀ a, charLexLt a a = false := by
  intro a
  induction a with
  | nil => rfl
  | cons c cs ih =>
    simp only [charLexLt]
    rw [if_neg (lt_irrefl c.toNat), if_neg (lt_irrefl c.toNat)]
    exact ih

lemma charLexLt_asym : ∀ a b, charLexLt a b = true → charLexLt b a = false := by
  intro a
  induction a with
  | nil =>
    intro b hb
    cases b with
    | nil => exact absurd hb (by simp [charLexLt])
    | cons d ds => rfl
  | cons c cs ih =>
    intro b hb
    cases b with
    | nil => exact absurd hb (by simp [charLexLt])
    | cons d ds =>
      simp only [charLexLt] at hb ⊢
      by_cases h1 : c.toNat < d.toNat
      · rw [if_neg (by omega), if_pos h1]
      · by_cases h2 : d.toNat < c.toNat
        · rw [if_neg h1, if_pos h2] at hb
          exact absurd hb (by simp)
        · rw [if_neg h1, if_neg h2] at hb
          rw [if_neg h2, if_neg h1]
          exact ih ds hb

lemma charLexLt_negtrans : ∀ a b c, charLexLt a b = false →
    charLexLt b c = false → charLexLt a c = false := by
  intro a
  induction a with
  | nil =>
    intro b c hab hbc
    cases b with
    | nil =>
      cases c with
      | nil => rfl
      | cons z zs => exact absurd hbc (by simp [charLexLt])
    | cons y ys => exact absurd hab (by simp [charLexLt])
  | cons x xs ih =>
    intro b c hab hbc
    cases b with
    | nil =>
      cases c with
      | nil => rfl
      | cons z zs => exact absurd hbc (by simp [charLexLt])
    | cons y ys =>
      cases c with
      | nil => rfl
      | cons z zs =>
        simp only [charLexLt] at hab hbc ⊢
        by_cases hxy : x.toNat < y.toNat
        · rw [if_pos hxy] at hab
          exact absurd hab (by simp)
        · by_cases hyz : y.toNat < z.toNat
          · rw [if_pos hyz] at hbc
            exact absurd hbc (by simp)
          · -- y ≤ x and z ≤ y, so z ≤ x
            rw [if_neg (by omega)]
            by_cases hzx : z.toNat < x.toNat
            · rw [if_pos hzx]
            · rw [if_neg hzx]
              -- all of x, y, z have equal codes, so both tails decide
              have hyx : ¬y.toNat < x.toNat := by omega
              have hzy : ¬z.toNat < y.toNat := by omega
              rw [if_neg hxy, if_neg hyx] at hab
              rw [if_neg hyz, if_neg hzy] at hbc
              exact ih ys zs hab hbc

lemma expiryCompare_asym : CompAsym ExpiryCompare := by
  intro a b h
  exact charLexLt_asym _ _ h

lemma expiryCompare_negtrans : CompNegTrans ExpiryCompare := by
  intro a b c h1 h2
  exact charLexLt_negtrans _ _ _ h2 h1

end Comparators

/-! ## Claim C1 (TaskPrioritizer) -/

/-- Claim C1, counterexample to the "stable ties" part: four tasks with
equal urgency 1 inserted in order a, b, c, d are reported in order
a, c, b, d by the drained `std::priority_queue` — not in insertion order,
which the claim (all urgencies equal, so sorting does not reorder) would
require to be a, b, c, d. -/
theorem claim_C1_counterexample :
    listByUrgency [⟨"a", 1⟩, ⟨"b", 1⟩, ⟨"c", 1⟩, ⟨"d", 1⟩]
        = [⟨"a", 1⟩, ⟨"c", 1⟩, ⟨"b", 1⟩, ⟨"d", 1⟩]
      ∧ listByUrgency [⟨"a", 1⟩, ⟨"b", 1⟩, ⟨"c", 1⟩, ⟨"d", 1⟩]
        ≠ [⟨"a", 1⟩, ⟨"b", 1⟩, ⟨"c", 1⟩, ⟨"d", 1⟩] := by
  constructor
  · simp [listByUrgency, insertTasks, heapPopAll, heapPopAllAux, heapPop,
      heapPush, siftUp, adjustDown, parentIdx, taskComp]
  · intro hcontra
    have : listByUrgency [⟨"a", 1⟩, ⟨"b", 1⟩, ⟨"c", 1⟩, ⟨"d", 1⟩]
        = [⟨"a", 1⟩, ⟨"c", 1⟩, ⟨"b", 1⟩, ⟨"d", 1⟩] := by
      simp [listByUrgency, insertTasks, heapPopAll, heapPopAllAux, heapPop,
        heapPush, siftUp, adjustDown, parentIdx, taskComp]
    rw [hcontra] at this
    simp at this

/-- Claim C1, amended: after any sequence of `insert` calls,
`listByUrgency()` returns all inserted tasks (as a multiset) sorted
ascending by urgency; equal-urgency tasks come out in heap order, not
necessarily insertion order; inserting urgencies [5, 1, 3] yields
[1, 3, 5]. -/
theorem claim_C1_sorted (ts : List Task) :
    ((listByUrgency ts : List Task) : Multiset Task) = (↑ts : Multiset Task)
    ∧ List.Pairwise (fun a b => a.urgency ≤ b.urgency) (listByUrgency ts)
    ∧ (listByUrgency [⟨"t1", 5⟩, ⟨"t2", 1⟩, ⟨"t3", 3⟩]).map Task.urgency
        = [1, 3, 5] := by
  have hheap : IsHeap taskComp (insertTasks ts) :=
    foldl_heapPush_isHeap taskComp taskComp_asym taskComp_negtrans ts []
      (isHeap_nil taskComp)
  obtain ⟨hpw, hms⟩ := heapPopAll_spec taskComp taskComp_asym
    taskComp_negtrans (insertTasks ts) hheap
  refine ⟨?_, ?_, ?_⟩
  · rw [listByUrgency, hms, insertTasks, foldl_heapPush_mset]
    simp
  · refine hpw.imp ?_
    intro a b h
    simp only [taskComp, decide_eq_false_iff_not, not_lt] at h
    exact h
  · simp [listByUrgency, insertTasks, heapPopAll, heapPopAllAux, heapPop,
      heapPush, siftUp, adjustDown, parentIdx, taskComp]

/-! ## Claim C6 (StockRanker rank) -/

/-- Claim C6: for every stock state, the "View Stock" report lists all stock
items sorted by expiry ascending in the byte-lexicographic string order
(`strLtB b.expiry a.expiry = false` says the later item does not expire
strictly earlier). -/
theorem claim_C6_rank_sorted (stock : List (String × Snack)) :
    ((rankByExpiry stock : List Snack) : Multiset Snack)
        = (↑(stock.map Prod.snd) : Multiset Snack)
    ∧ List.Pairwise (fun a b => strLtB b.expiry a.expiry = false)
        (rankByExpiry stock) := by
  have hheap : IsHeap ExpiryCompare
      ((stock.map Prod.snd).foldl (heapPush ExpiryCompare) []) :=
    foldl_heapPush_isHeap ExpiryCompare expiryCompare_asym
      expiryCompare_negtrans (stock.map Prod.snd) [] (isHeap_nil ExpiryCompare)
  obtain ⟨hpw, hms⟩ := heapPopAll_spec ExpiryCompare expiryCompare_asym
    expiryCompare_negtrans _ hheap
  refine ⟨?_, hpw⟩
  rw [rankByExpiry, hms, foldl_heapPush_mset]
  simp


end HostelDada

namespace HostelDada

/-! ## Dijkstra: small supporting lemmas -/

section DijkstraLemmas

lemma alistLookup_mem {β : Type} (m : List (String × β)) (k : String)
    (v : β) (h : alistLookup m k = some v) : (k, v) ∈ m := by
  induction m with
  | nil => simp [alistLookup] at h
  | cons p rest ih =>
    simp only [alistLookup] at h
    by_cases hk : p.1 = k
    · rw [if_pos hk] at h
      injection h with h
      have hp : p = (k, v) := by
        rw [Prod.ext_iff]
        exact ⟨hk, h⟩
      rw [hp]
      exact List.mem_cons_self _ _
    · rw [if_neg hk] at h
      exact List.mem_cons_of_mem p (ih h)

lemma alistLookup_append_some {β : Type} (m l2 : List (String × β))
    (k : String) (v : β) (h : alistLookup m k = some v) :
    alistLookup (m ++ l2) k = some v := by
  induction m with
  | nil => simp [alistLookup] at h
  | cons p rest ih =>
    simp only [alistLookup] at h ⊢
    by_cases hk : p.1 = k
    · rw [if_pos hk] at h ⊢
      exact h
    · rw [if_neg hk] at h ⊢
      exact ih h

lemma alistLookup_append_none {β : Type} (m l2 : List (String × β))
    (k : String) (h : alistLookup m k = none) :
    alistLookup (m ++ l2) k = alistLookup l2 k := by
  induction m with
  | nil => rfl
  | cons p rest ih =>
    simp only [alistLookup] at h ⊢
    by_cases hk : p.1 = k
    · rw [if_pos hk] at h
      exact absurd h (by simp)
    · rw [if_neg hk] at h ⊢
      exact ih h

lemma nonneg_adj {g : Graph} (hnn : NonnegGraph g) {u : String}
    {e : String × Int} (he : e ∈ graphAdj g u) : 0 ≤ e.2 := by
  rw [graphAdj] at he
  cases hl : alistLookup g u with
  | none => rw [hl] at he; simp at he
  | some adj =>
    rw [hl] at he
    simp only [Option.getD_some] at he
    exact hnn (u, adj) (alistLookup_mem g u adj hl) e he

lemma pqMin_mem : ∀ (pq : List (Int × String)) (e : Int × String),
    pqMin pq = some e → e ∈ pq := by
  intro pq e h
  cases pq with
  | nil => simp [pqMin] at h
  | cons x xs =>
    simp only [pqMin] at h
    injection h with h
    subst h
    have haux : ∀ (l : List (Int × String)) (b : Int × String),
        l.foldl (fun m y => if pairLt y m then y else m) b ∈ b :: l := by
      intro l
      induction l with
      | nil => intro b; simp
      | cons y ys ih =>
        intro b
        rw [List.foldl_cons]
        by_cases hy : pairLt y b
        · rw [if_pos hy]
          have := ih y
          rcases List.mem_cons.mp this with h | h
          · rw [h]; simp
          · simp [h]
        · rw [if_neg hy]
          have := ih b
          rcases List.mem_cons.mp this with h | h
          · rw [h]; simp
          · simp [h]
    exact haux xs x

lemma pqPop_none_iff (pq : List (Int × String)) :
    pqPop pq = none ↔ pq = [] := by
  cases pq with
  | nil => simp [pqPop, pqMin]
  | cons x xs =>
    simp only [pqPop, pqMin]
    constructor
    · intro h
      exact absurd h (by simp)
    · intro h
      exact absurd h (by simp)

lemma pqPop_mem (pq : List (Int × String)) (e : Int × String)
    (pq' : List (Int × String)) (h : pqPop pq = some (e, pq')) : e ∈ pq := by
  simp only [pqPop] at h
  cases hm : pqMin pq with
  | none => rw [hm] at h; exact absurd h (by simp)
  | some e0 =>
    rw [hm] at h
    injection h with h
    injection h with h1 h2
    subst h1
    exact pqMin_mem pq e0 hm

lemma pqPop_rest (pq : List (Int × String)) (e : Int × String)
    (pq' : List (Int × String)) (h : pqPop pq = some (e, pq')) :
    pq' = pqErase pq e := by
  simp only [pqPop] at h
  cases hm : pqMin pq with
  | none => rw [hm] at h; exact absurd h (by simp)
  | some e0 =>
    rw [hm] at h
    injection h with h
    injection h with h1 h2
    subst h1
    exact h2.symm

lemma mem_pqErase_of_ne (pq : List (Int × String)) (x e : Int × String)
    (hx : x ∈ pq) (hne : x ≠ e) : x ∈ pqErase pq e := by
  induction pq with
  | nil => simp at hx
  | cons y ys ih =>
    simp only [pqErase]
    by_cases hy : y = e
    · rw [if_pos hy]
      rcases List.mem_cons.mp hx with h | h
      · rw [h] at hne; rw [hy] at hne; exact absurd rfl hne
      · exact h
    · rw [if_neg hy]
      rcases List.mem_cons.mp hx with h | h
      · rw [h]; simp
      · simp [ih h]

lemma pqErase_subset (pq : List (Int × String)) (e x : Int × String)
    (hx : x ∈ pqErase pq e) : x ∈ pq := by
  induction pq with
  | nil => simp [pqErase] at hx
  | cons y ys ih =>
    simp only [pqErase] at hx
    by_cases hy : y = e
    · rw [if_pos hy] at hx
      exact List.mem_cons_of_mem y hx
    · rw [if_neg hy] at hx
      rcases List.mem_cons.mp hx with h | h
      · rw [h]; simp
      · simp [ih h]

lemma distGet_of_some (m : List (String × Int)) (x : String) (v : Int)
    (h : alistLookup m x = some v) : distGet m x = (v, m) := by
  simp [distGet, h]

lemma distGet_of_none (m : List (String × Int)) (x : String)
    (h : alistLookup m x = none) : distGet m x = (0, m ++ [(x, 0)]) := by
  simp [distGet, h]

end DijkstraLemmas

end HostelDada

namespace HostelDada

/-! ## Dijkstra: relaxation preserves the invariants -/

section DijkstraRelax

lemma mem_keys_of_adj {g : Graph} {u : String} {e : String × Int}
    (he : e ∈ graphAdj g u) : u ∈ graphKeys g := by
  rw [graphAdj] at he
  cases hl : alistLookup g u with
  | none => rw [hl] at he; simp at he
  | some adj =>
    have := alistLookup_mem g u adj hl
    rw [graphKeys]
    exact List.mem_map.mpr ⟨(u, adj), this, rfl⟩

lemma graphAdj_not_key {g : Graph} {x : String} (hx : x ∉ graphKeys g) :
    graphAdj g x = [] := by
  cases hl : alistLookup g x with
  | none => rw [graphAdj, hl]; rfl
  | some adj =>
    exfalso
    apply hx
    rw [graphKeys]
    exact List.mem_map.mpr ⟨(x, adj), alistLookup_mem g x adj hl, rfl⟩

lemma isSome_alistSet (m : List (String × Int)) (k k2 : String) (v : Int)
    (h : (alistLookup m k2).isSome) :
    (alistLookup (alistSet m k v) k2).isSome := by
  by_cases hk : k = k2
  · rw [hk, alistLookup_set_self]
    rfl
  · rw [alistLookup_set_ne m k k2 v hk]
    exact h

lemma lookup_single (v : String) (w : Int) (x : String) :
    alistLookup [(v, w)] x = if v = x then some w else none := rfl

lemma relaxEdge_spec (g : Graph) (src : String) (hnn : NonnegGraph g)
    (u : String) (du : Int) (dist : List (String × Int))
    (pq : List (Int × String)) (e : String × Int)
    (he : e ∈ graphAdj g u)
    (hbase : DInvBase g src dist pq)
    (hu : alistLookup dist u = some du) :
    DInvBase g src (relaxEdge u (dist, pq) e).1 (relaxEdge u (dist, pq) e).2
    ∧ alistLookup (relaxEdge u (dist, pq) e).1 u = some du
    ∧ (∃ dv, alistLookup (relaxEdge u (dist, pq) e).1 e.1 = some dv
        ∧ dv ≤ du + e.2)
    ∧ (∀ x ov, alistLookup dist x = some ov →
        ∃ nv, alistLookup (relaxEdge u (dist, pq) e).1 x = some nv ∧ nv ≤ ov)
    ∧ (∀ p ∈ pq, p ∈ (relaxEdge u (dist, pq) e).2)
    ∧ (∀ x, DRelaxed g dist pq x →
        DRelaxed g (relaxEdge u (dist, pq) e).1
          (relaxEdge u (dist, pq) e).2 x) := by
  obtain ⟨hsrc, hbnd, hreal, hpqdom, hkeys⟩ := hbase
  obtain ⟨v, w⟩ := e
  have hw : (0 : Int) ≤ w := nonneg_adj hnn he
  have hdu0 : 0 ≤ du := (hbnd u du hu).1
  cases hv : alistLookup dist v with
  | some dv =>
    have hget : distGet dist v = (dv, dist) := distGet_of_some dist v dv hv
    have hgetu : distGet dist u = (du, dist) := distGet_of_some dist u du hu
    by_cases hupd : du + w < dv
    · -- relaxation fires
      have hres : relaxEdge u (dist, pq) (v, w)
          = (alistSet dist v (du + w), pq ++ [(du + w, v)]) := by
        simp only [relaxEdge, hget, hgetu]
        rw [if_pos hupd]
      have hvsrc : v ≠ src := by
        intro hveq
        rw [hveq, hsrc] at hv
        injection hv with hv
        omega
      have hvu : v ≠ u := by
        intro hveq
        rw [hveq, hu] at hv
        injection hv with hv
        omega
      have hdvbnd := hbnd v dv hv
      have hlookup_new : ∀ x, alistLookup (alistSet dist v (du + w)) x
          = if v = x then some (du + w) else alistLookup dist x := by
        intro x
        by_cases hx : v = x
        · rw [if_pos hx, hx, alistLookup_set_self]
        · rw [if_neg hx, alistLookup_set_ne dist v x _ hx]
      rw [hres]
      refine ⟨⟨?_, ?_, ?_, ?_, ?_⟩, ?_, ?_, ?_, ?_, ?_⟩
      · rw [hlookup_new src, if_neg hvsrc]
        exact hsrc
      · intro x val hval
        rw [hlookup_new x] at hval
        by_cases hx : v = x
        · rw [if_pos hx] at hval
          injection hval with hval
          omega
        · rw [if_neg hx] at hval
          exact hbnd x val hval
      · intro x val hval
        rw [hlookup_new x] at hval
        by_cases hx : v = x
        · rw [if_pos hx] at hval
          injection hval with hval
          subst hval
          left
          subst hx
          rcases hreal u du hu with hp | h9 | ⟨h0, hnk⟩
          · exact Path.tail hp he
          · omega
          · exact absurd he (by rw [graphAdj_not_key hnk]; simp)
        · rw [if_neg hx] at hval
          exact hreal x val hval
      · intro d x hdx
        rcases List.mem_append.mp hdx with hmem | hmem
        · exact isSome_alistSet dist v x _ (hpqdom d x hmem)
        · simp only [List.mem_singleton] at hmem
          injection hmem with h1 h2
          subst h2
          rw [hlookup_new x, if_pos rfl]
          rfl
      · intro x hx
        exact isSome_alistSet dist v x _ (hkeys x hx)
      · rw [hlookup_new u, if_neg hvu]
        exact hu
      · refine ⟨du + w, ?_, le_refl _⟩
        rw [hlookup_new v, if_pos rfl]
      · intro x ov hov
        by_cases hx : v = x
        · refine ⟨du + w, ?_, ?_⟩
          · rw [hlookup_new x, if_pos hx]
          · rw [← hx] at hov
            rw [hv] at hov
            injection hov with hov
            omega
        · refine ⟨ov, ?_, le_refl _⟩
          rw [hlookup_new x, if_neg hx]
          exact hov
      · intro p hp
        exact List.mem_append.mpr (Or.inl hp)
      · intro x hold val hval h9
        by_cases hx : v = x
        · left
          refine ⟨du + w, List.mem_append.mpr (Or.inr (by simp [hx])), ?_⟩
          rw [hlookup_new x, if_pos hx] at hval
          injection hval with hval
          omega
        · rw [hlookup_new x, if_neg hx] at hval
          rcases hold val hval h9 with ⟨d, hdmem, hdle⟩ | hrel
          · exact Or.inl ⟨d, List.mem_append.mpr (Or.inl hdmem), hdle⟩
          · right
            intro e2 he2
            obtain ⟨dv2, hdv2, hle2⟩ := hrel e2 he2
            by_cases hx2 : v = e2.1
            · refine ⟨du + w, ?_, ?_⟩
              · rw [hlookup_new e2.1, if_pos hx2]
              · rw [← hx2, hv] at hdv2
                injection hdv2 with hdv2
                omega
            · refine ⟨dv2, ?_, hle2⟩
              rw [hlookup_new e2.1, if_neg hx2]
              exact hdv2
    · -- no relaxation
      have hres : relaxEdge u (dist, pq) (v, w) = (dist, pq) := by
        simp only [relaxEdge, hget, hgetu]
        rw [if_neg hupd]
      rw [hres]
      refine ⟨⟨hsrc, hbnd, hreal, hpqdom, hkeys⟩, hu, ?_, ?_, ?_, ?_⟩
      · exact ⟨dv, hv, by omega⟩
      · intro x ov hov
        exact ⟨ov, hov, le_refl _⟩
      · intro p hp
        exact hp
      · intro x hold
        exact hold
  | none =>
    -- `dist[v]` default-inserts a 0 entry for the non-key node v
    have hget : distGet dist v = (0, dist ++ [(v, 0)]) :=
      distGet_of_none dist v hv
    have hu1 : alistLookup (dist ++ [(v, 0)]) u = some du :=
      alistLookup_append_some dist _ u du hu
    have hgetu : distGet (dist ++ [(v, 0)]) u = (du, dist ++ [(v, 0)]) :=
      distGet_of_some _ u du hu1
    have hupd : ¬(du + w < 0) := by omega
    have hres : relaxEdge u (dist, pq) (v, w) = (dist ++ [(v, 0)], pq) := by
      simp only [relaxEdge, hget, hgetu]
      rw [if_neg hupd]
    have hvkeys : v ∉ graphKeys g := by
      intro hmem
      have := hkeys v hmem
      rw [hv] at this
      exact absurd this (by simp)
    have hlookup_new : ∀ x, alistLookup (dist ++ [(v, 0)]) x
        = match alistLookup dist x with
          | some ov => some ov
          | none => if v = x then some 0 else none := by
      intro x
      cases hx : alistLookup dist x with
      | some ov => exact alistLookup_append_some dist _ x ov hx
      | none =>
        rw [alistLookup_append_none dist _ x hx]
        exact lookup_single v 0 x
    rw [hres]
    refine ⟨⟨?_, ?_, ?_, ?_, ?_⟩, hu1, ?_, ?_, ?_, ?_⟩
    · exact alistLookup_append_some dist _ src 0 hsrc
    · intro x val hval
      rw [hlookup_new x] at hval
      cases hx : alistLookup dist x with
      | some ov =>
        rw [hx] at hval
        injection hval with hval
        subst hval
        exact hbnd x ov hx
      | none =>
        rw [hx] at hval
        by_cases hvx : v = x
        · rw [if_pos hvx] at hval
          injection hval with hval
          omega
        · rw [if_neg hvx] at hval
          exact absurd hval (by simp)
    · intro x val hval
      rw [hlookup_new x] at hval
      cases hx : alistLookup dist x with
      | some ov =>
        rw [hx] at hval
        injection hval with hval
        subst hval
        exact hreal x ov hx
      | none =>
        rw [hx] at hval
        by_cases hvx : v = x
        · rw [if_pos hvx] at hval
          injection hval with hval
          right; right
          rw [← hvx]
          exact ⟨hval.symm, hvkeys⟩
        · rw [if_neg hvx] at hval
          exact absurd hval (by simp)
    · intro d x hdx
      have := hpqdom d x hdx
      cases hx : alistLookup dist x with
      | some ov =>
        rw [alistLookup_append_some dist _ x ov hx]
        rfl
      | none =>
        rw [hx] at this
        exact absurd this (by simp)
    · intro x hx
      have := hkeys x hx
      cases hx2 : alistLookup dist x with
      | some ov =>
        rw [alistLookup_append_some dist _ x ov hx2]
        rfl
      | none =>
        rw [hx2] at this
        exact absurd this (by simp)
    · refine ⟨0, ?_, by omega⟩
      rw [alistLookup_append_none dist _ v hv, lookup_single, if_pos rfl]
    · intro x ov hov
      exact ⟨ov, alistLookup_append_some dist _ x ov hov, le_refl _⟩
    · intro p hp
      exact hp
    · intro x hold val hval h9
      rw [hlookup_new x] at hval
      cases hx : alistLookup dist x with
      | some ov =>
        rw [hx] at hval
        injection hval with hval
        subst hval
        rcases hold ov hx h9 with ⟨d, hdmem, hdle⟩ | hrel
        · exact Or.inl ⟨d, hdmem, hdle⟩
        · right
          intro e2 he2
          obtain ⟨dv2, hdv2, hle2⟩ := hrel e2 he2
          exact ⟨dv2, alistLookup_append_some dist _ e2.1 dv2 hdv2, hle2⟩
      | none =>
        rw [hx] at hval
        by_cases hvx : v = x
        · rw [if_pos hvx] at hval
          injection hval with hval
          right
          intro e2 he2
          rw [← hvx] at he2
          rw [graphAdj_not_key hvkeys] at he2
          exact absurd he2 (by simp)
        · rw [if_neg hvx] at hval
          exact absurd hval (by simp)

end DijkstraRelax

end HostelDada

namespace HostelDada

/-! ## Dijkstra: loop preservation and final-state facts -/

section DijkstraLoopProofs

lemma relaxAll_spec (g : Graph) (src : String) (hnn : NonnegGraph g)
    (u : String) (du : Int) :
    ∀ (adj : List (String × Int)) (dist : List (String × Int))
      (pq : List (Int × String)),
      (∀ e ∈ adj, e ∈ graphAdj g u) →
      DInvBase g src dist pq →
      alistLookup dist u = some du →
      DInvBase g src (adj.foldl (relaxEdge u) (dist, pq)).1
          (adj.foldl (relaxEdge u) (dist, pq)).2
      ∧ alistLookup (adj.foldl (relaxEdge u) (dist, pq)).1 u = some du
      ∧ (∀ e ∈ adj, ∃ dv,
          alistLookup (adj.foldl (relaxEdge u) (dist, pq)).1 e.1 = some dv
            ∧ dv ≤ du + e.2)
      ∧ (∀ x ov, alistLookup dist x = some ov →
          ∃ nv, alistLookup (adj.foldl (relaxEdge u) (dist, pq)).1 x
            = some nv ∧ nv ≤ ov)
      ∧ (∀ p ∈ pq, p ∈ (adj.foldl (relaxEdge u) (dist, pq)).2)
      ∧ (∀ x, DRelaxed g dist pq x →
          DRelaxed g (adj.foldl (relaxEdge u) (dist, pq)).1
            (adj.foldl (relaxEdge u) (dist, pq)).2 x) := by
  intro adj
  induction adj with
  | nil =>
    intro dist pq _ hbase hu
    exact ⟨hbase, hu, by simp, fun x ov h => ⟨ov, h, le_refl _⟩,
      fun p hp => hp, fun x h => h⟩
  | cons e rest ih =>
    intro dist pq hsub hbase hu
    rw [List.foldl_cons]
    obtain ⟨hb1, hu1, he1, hmono1, hpq1, hrel1⟩ :=
      relaxEdge_spec g src hnn u du dist pq e
        (hsub e (List.mem_cons_self e rest)) hbase hu
    obtain ⟨hb2, hu2, he2, hmono2, hpq2, hrel2⟩ :=
      ih (relaxEdge u (dist, pq) e).1 (relaxEdge u (dist, pq) e).2
        (fun e2 h2 => hsub e2 (List.mem_cons_of_mem e h2)) hb1 hu1
    refine ⟨hb2, hu2, ?_, ?_,
      fun p hp => hpq2 _ (hpq1 p hp), fun x h => hrel2 x (hrel1 x h)⟩
    · intro e2 he2m
      rcases List.mem_cons.mp he2m with heq | hmem
      · subst heq
        obtain ⟨dv, hdv, hle⟩ := he1
        obtain ⟨nv, hnv, hnvle⟩ := hmono2 e2.1 dv hdv
        exact ⟨nv, hnv, by omega⟩
      · exact he2 e2 hmem
    · intro x ov hov
      obtain ⟨nv1, h1, l1⟩ := hmono1 x ov hov
      obtain ⟨nv2, h2, l2⟩ := hmono2 x nv1 h1
      exact ⟨nv2, h2, by omega⟩

lemma dijkstraLoop_spec (g : Graph) (src : String) (hnn : NonnegGraph g) :
    ∀ (fuel : Nat) (dist : List (String × Int)) (pq : List (Int × String)),
      DInvBase g src dist pq → (∀ x, DRelaxed g dist pq x) →
      ∀ dist', dijkstraLoop g fuel dist pq = some dist' →
        DInvBase g src dist' [] ∧ (∀ x, DRelaxed g dist' [] x) := by
  intro fuel
  induction fuel with
  | zero =>
    intro dist pq _ _ dist' h
    exact absurd h (by simp [dijkstraLoop])
  | succ f ih =>
    intro dist pq hbase hrel dist' hrun
    rw [dijkstraLoop] at hrun
    cases hpop : pqPop pq with
    | none =>
      rw [hpop] at hrun
      injection hrun with hrun
      subst hrun
      have hempty : pq = [] := (pqPop_none_iff pq).mp hpop
      subst hempty
      exact ⟨hbase, hrel⟩
    | some pr =>
      obtain ⟨⟨d, u⟩, pq'⟩ := pr
      rw [hpop] at hrun
      have hmem : (d, u) ∈ pq := pqPop_mem pq _ _ hpop
      have hrest : pq' = pqErase pq (d, u) := pqPop_rest pq _ _ hpop
      have husome := hbase.2.2.2.1 d u hmem
      obtain ⟨du, hu⟩ := Option.isSome_iff_exists.mp husome
      have hget : distGet dist u = (du, dist) := distGet_of_some dist u du hu
      have hrun2 : (if (distGet dist u).1 < d then
            dijkstraLoop g f (distGet dist u).2 pq'
          else dijkstraLoop g f
            ((graphAdj g u).foldl (relaxEdge u) ((distGet dist u).2, pq')).1
            ((graphAdj g u).foldl (relaxEdge u)
              ((distGet dist u).2, pq')).2) = some dist' := hrun
      rw [hget] at hrun2
      have hrun3 : (if du < d then dijkstraLoop g f dist pq'
          else dijkstraLoop g f
            ((graphAdj g u).foldl (relaxEdge u) (dist, pq')).1
            ((graphAdj g u).foldl (relaxEdge u) (dist, pq')).2)
          = some dist' := hrun2
      clear hrun hrun2
      have hbase' : DInvBase g src dist pq' := by
        obtain ⟨h1, h2, h3, h4, h5⟩ := hbase
        refine ⟨h1, h2, h3, ?_, h5⟩
        intro d2 x2 hm
        apply h4 d2 x2
        rw [hrest] at hm
        exact pqErase_subset pq (d, u) (d2, x2) hm
      by_cases hstale : du < d
      · rw [if_pos hstale] at hrun3
        have hrel' : ∀ x, DRelaxed g dist pq' x := by
          intro x val hval h9
          rcases hrel x val hval h9 with ⟨d2, hmem2, hle2⟩ | hrx
          · left
            refine ⟨d2, ?_, hle2⟩
            rw [hrest]
            apply mem_pqErase_of_ne pq (d2, x) (d, u) hmem2
            intro heq
            injection heq with hq1 hq2
            subst hq1
            subst hq2
            rw [hu] at hval
            injection hval with hval
            omega
          · exact Or.inr hrx
        exact ih dist pq' hbase' hrel' dist' hrun3
      · rw [if_neg hstale] at hrun3
        have hrel' : ∀ x, x ≠ u → DRelaxed g dist pq' x := by
          intro x hxu val hval h9
          rcases hrel x val hval h9 with ⟨d2, hmem2, hle2⟩ | hrx
          · left
            refine ⟨d2, ?_, hle2⟩
            rw [hrest]
            apply mem_pqErase_of_ne pq (d2, x) (d, u) hmem2
            intro heq
            injection heq with hq1 hq2
            exact hxu hq2
          · exact Or.inr hrx
        obtain ⟨hb2, hu2, headj, hmono2, hpq2, hrelpres⟩ :=
          relaxAll_spec g src hnn u du (graphAdj g u) dist pq'
            (fun e h => h) hbase' hu
        refine ih _ _ hb2 ?_ dist' hrun3
        intro x
        by_cases hxu : x = u
        · subst hxu
          intro val hval h9
          rw [hu2] at hval
          injection hval with hval
          subst hval
          right
          intro e2 he2
          obtain ⟨dv, hdv, hle⟩ := headj e2 he2
          exact ⟨dv, hdv, hle⟩
        · exact hrelpres x (hrel' x hxu)

lemma init_fold_lookup :
    ∀ (l : Graph) (m : List (String × Int)) (x : String),
      alistLookup (l.foldl (fun m2 kv => alistSet m2 kv.1 1000000000) m) x
        = if x ∈ l.map Prod.fst then some 1000000000 else alistLookup m x := by
  intro l
  induction l with
  | nil => intro m x; simp
  | cons kv rest ih =>
    intro m x
    rw [List.foldl_cons, ih]
    by_cases hrest : x ∈ rest.map Prod.fst
    · rw [if_pos hrest, if_pos (by simp [hrest])]
    · rw [if_neg hrest]
      by_cases hkv : kv.1 = x
      · rw [if_pos (by simp [hkv]), hkv, alistLookup_set_self]
      · rw [if_neg (by simp [hkv, hrest] ; exact fun h => hkv h.symm),
          alistLookup_set_ne m kv.1 x _ hkv]

lemma dijkstraInit_lookup (g : Graph) (src x : String) :
    alistLookup (dijkstraInit g src) x
      = if x = src then some 0
        else if x ∈ graphKeys g then some 1000000000 else none := by
  rw [dijkstraInit]
  by_cases hx : x = src
  · rw [if_pos hx, hx, alistLookup_set_self]
  · rw [if_neg hx, alistLookup_set_ne _ src x _ (fun h => hx h.symm),
      init_fold_lookup, graphKeys]
    by_cases hk : x ∈ g.map Prod.fst
    · rw [if_pos hk, if_pos hk]
    · rw [if_neg hk, if_neg hk]
      rfl

lemma dijkstraInit_inv (g : Graph) (src : String) :
    DInvBase g src (dijkstraInit g src) [(0, src)]
    ∧ (∀ x, DRelaxed g (dijkstraInit g src) [(0, src)] x) := by
  constructor
  · refine ⟨?_, ?_, ?_, ?_, ?_⟩
    · rw [dijkstraInit_lookup, if_pos rfl]
    · intro x v hv
      rw [dijkstraInit_lookup] at hv
      by_cases hx : x = src
      · rw [if_pos hx] at hv
        injection hv with hv
        omega
      · rw [if_neg hx] at hv
        by_cases hk : x ∈ graphKeys g
        · rw [if_pos hk] at hv
          injection hv with hv
          omega
        · rw [if_neg hk] at hv
          exact absurd hv (by simp)
    · intro x v hv
      rw [dijkstraInit_lookup] at hv
      by_cases hx : x = src
      · rw [if_pos hx] at hv
        injection hv with hv
        subst hv
        subst hx
        exact Or.inl Path.refl
      · rw [if_neg hx] at hv
        by_cases hk : x ∈ graphKeys g
        · rw [if_pos hk] at hv
          injection hv with hv
          exact Or.inr (Or.inl hv.symm)
        · rw [if_neg hk] at hv
          exact absurd hv (by simp)
    · intro d x hdx
      simp only [List.mem_singleton] at hdx
      injection hdx with h1 h2
      subst h2
      rw [dijkstraInit_lookup, if_pos rfl]
      rfl
    · intro x hk
      rw [dijkstraInit_lookup]
      by_cases hx : x = src
      · rw [if_pos hx]; rfl
      · rw [if_neg hx, if_pos hk]; rfl
  · intro x v hv h9
    rw [dijkstraInit_lookup] at hv
    by_cases hx : x = src
    · rw [if_pos hx] at hv
      injection hv with hv
      left
      refine ⟨0, by simp [hx], by omega⟩
    · rw [if_neg hx] at hv
      by_cases hk : x ∈ graphKeys g
      · rw [if_pos hk] at hv
        injection hv with hv
        omega
      · rw [if_neg hk] at hv
        exact absurd hv (by simp)

lemma dist_le_path (g : Graph) (src : String) (dist : List (String × Int))
    (hnn : NonnegGraph g)
    (hbase : DInvBase g src dist [])
    (hrel : ∀ x, DRelaxed g dist [] x) :
    ∀ (x : String) (W : Int), Path g src x W → W < 1000000000 →
      ∃ dx, alistLookup dist x = some dx ∧ dx ≤ W := by
  intro x W hpath
  induction hpath with
  | refl =>
    intro _
    exact ⟨0, hbase.1, le_refl 0⟩
  | tail hp hedge ihp =>
    intro h9
    rename_i u v d w
    have hw : (0 : Int) ≤ w := nonneg_adj hnn hedge
    obtain ⟨du, hdu, hdule⟩ := ihp (by omega)
    have hdu9 : du < 1000000000 := by omega
    rcases hrel u du hdu hdu9 with ⟨d2, hmem, _⟩ | hrx
    · exact absurd hmem (by simp)
    · obtain ⟨dv, hdv, hle⟩ := hrx (v, w) hedge
      exact ⟨dv, hdv, by omega⟩

end DijkstraLoopProofs

end HostelDada

namespace HostelDada

/-! ## Claims C4 and C5 (PathFinder) -/

lemma dijkstra_final (g : Graph) (src dest : String) (fuel : Nat) (d : Int)
    (hnn : NonnegGraph g) (h : dijkstra g src dest fuel = some d) :
    ∃ dist', DInvBase g src dist' [] ∧ (∀ x, DRelaxed g dist' [] x)
      ∧ d = (distGet dist' dest).1 := by
  rw [dijkstra] at h
  obtain ⟨dist', hloop, hd⟩ := Option.map_eq_some'.mp h
  obtain ⟨hbase0, hrel0⟩ := dijkstraInit_inv g src
  obtain ⟨hb, hr⟩ :=
    dijkstraLoop_spec g src hnn fuel _ _ hbase0 hrel0 dist' hloop
  exact ⟨dist', hb, hr, hd.symm⟩

/-- Claim C4, amended: for every graph with non-negative weights,
`shortestPath(source, source) = 0`; and whenever the destination occurs as
an adjacency-map key and some path of weight below the code's 10^9
"infinity" sentinel reaches it, the returned value is the minimum total
edge weight over all paths (attained by a path and a lower bound for every
path); on the seed graph, Gate to Laundry yields 3. -/
theorem claim_C4_shortest_path :
    (∀ (g : Graph) (src : String) (fuel : Nat) (d : Int),
        NonnegGraph g → dijkstra g src src fuel = some d → d = 0)
    ∧ (∀ (g : Graph) (src dest : String) (fuel : Nat) (dres : Int),
        NonnegGraph g → dest ∈ graphKeys g →
        (∃ W, Path g src dest W ∧ W < 1000000000) →
        dijkstra g src dest fuel = some dres →
        Path g src dest dres ∧ (∀ W, Path g src dest W → dres ≤ W))
    ∧ dijkstra seedGraph "Gate" "Laundry" 20 = some 3 := by
  refine ⟨?_, ?_, rfl⟩
  · intro g src fuel d hnn hrun
    obtain ⟨dist', hb, _, hd⟩ := dijkstra_final g src src fuel d hnn hrun
    rw [distGet_of_some dist' src 0 hb.1] at hd
    exact hd
  · intro g src dest fuel dres hnn hkey hex hrun
    obtain ⟨dist', hb, hr, hd⟩ :=
      dijkstra_final g src dest fuel dres hnn hrun
    obtain ⟨W0, hpath0, hW0⟩ := hex
    obtain ⟨dx, hdx, hdxle⟩ :=
      dist_le_path g src dist' hnn hb hr dest W0 hpath0 hW0
    rw [distGet_of_some dist' dest dx hdx] at hd
    have hdres : dres = dx := hd
    rw [hdres]
    have hdx9 : dx < 1000000000 := by omega
    constructor
    · rcases hb.2.2.1 dest dx hdx with hp | h9 | ⟨h0, hnk⟩
      · exact hp
      · omega
      · exact absurd hkey hnk
    · intro W hW
      by_cases hW9 : W < 1000000000
      · obtain ⟨dx2, hdx2, hle2⟩ :=
          dist_le_path g src dist' hnn hb hr dest W hW hW9
        rw [hdx] at hdx2
        injection hdx2 with hdx2
        omega
      · omega

/-- Witness for C4 on the seed graph: all hypotheses hold concretely and
3 is the shortest Gate-to-Laundry distance. -/
theorem claim_C4_witness :
    (NonnegGraph seedGraph
      ∧ "Laundry" ∈ graphKeys seedGraph
      ∧ (∃ W, Path seedGraph "Gate" "Laundry" W ∧ W < 1000000000)
      ∧ dijkstra seedGraph "Gate" "Laundry" 20 = some 3)
    ∧ (Path seedGraph "Gate" "Laundry" 3
      ∧ ∀ W, Path seedGraph "Gate" "Laundry" W → 3 ≤ W) := by
  have hpath : Path seedGraph "Gate" "Laundry" 3 := by
    have h1 : Path seedGraph "Gate" "Mess" (0 + 2) :=
      Path.tail Path.refl (by decide)
    have h2 : Path seedGraph "Gate" "Laundry" ((0 + 2) + 1) :=
      Path.tail h1 (by decide)
    have h3 : ((0 : Int) + 2) + 1 = 3 := by norm_num
    rw [h3] at h2
    exact h2
  refine ⟨⟨by unfold NonnegGraph; decide, by decide,
      ⟨3, hpath, by norm_num⟩, rfl⟩,
    claim_C4_shortest_path.2.1 seedGraph "Gate" "Laundry" 20 3
      (by unfold NonnegGraph; decide) (by decide)
      ⟨3, hpath, by norm_num⟩ rfl⟩

/-- Claim C4, counterexample: in the graph with the single edge
A -> B (weight 5) where B is not an adjacency-map key, the code
default-inserts `dist["B"] = 0` during relaxation and reports distance 0 —
but the minimum total edge weight over all A-to-B paths is 5, and no path
has weight 0. -/
theorem claim_C4_counterexample :
    dijkstra [("A", [("B", 5)])] "A" "B" 10 = some 0
    ∧ Path [("A", [("B", 5)])] "A" "B" 5
    ∧ (∀ W, Path [("A", [("B", 5)])] "A" "B" W → W = 5)
    ∧ ¬ Path [("A", [("B", 5)])] "A" "B" 0 := by
  have hchar : ∀ (x : String) (W : Int), Path [("A", [("B", 5)])] "A" x W →
      (x = "A" ∧ W = 0) ∨ (x = "B" ∧ W = 5) := by
    intro x W hp
    induction hp with
    | refl => exact Or.inl ⟨rfl, rfl⟩
    | tail p hedge ih =>
      rename_i u v d w
      rcases ih with ⟨hu, hd⟩ | ⟨hu, hd⟩
      · subst hu
        have hmem : (v, w) ∈ [(("B" : String), (5 : Int))] := by
          rw [show graphAdj [("A", [("B", 5)])] "A" = [("B", 5)]
            from rfl] at hedge
          exact hedge
        simp only [List.mem_singleton] at hmem
        injection hmem with h1 h2
        subst h1
        subst h2
        subst hd
        exact Or.inr ⟨rfl, by norm_num⟩
      · subst hu
        rw [show graphAdj [("A", [("B", 5)])] "B" = [] from rfl] at hedge
        exact absurd hedge (by simp)
  have hpath5 : Path [("A", [("B", 5)])] "A" "B" 5 := by
    have h := Path.tail (Path.refl)
      (show (("B" : String), (5 : Int)) ∈ graphAdj [("A", [("B", 5)])] "A"
        by decide)
    rw [show ((0 : Int) + 5) = 5 from by norm_num] at h
    exact h
  refine ⟨rfl, hpath5, ?_, ?_⟩
  · intro W hW
    rcases hchar "B" W hW with ⟨hB, _⟩ | ⟨_, h5⟩
    · exact absurd hB (by decide)
    · exact h5
  · intro h0
    rcases hchar "B" 0 h0 with ⟨hB, _⟩ | ⟨_, h5⟩
    · exact absurd hB (by decide)
    · exact absurd h5 (by norm_num)

/-- Claim C5, amended: for every graph with non-negative weights whose
destination occurs as an adjacency-map key, if no path connects source to
destination the code reports the 10^9 "infinity" sentinel. -/
theorem claim_C5_unreachable (g : Graph) (src dest : String) (fuel : Nat)
    (d : Int) (hnn : NonnegGraph g) (hkey : dest ∈ graphKeys g)
    (hnc : ¬ ∃ W, Path g src dest W)
    (hrun : dijkstra g src dest fuel = some d) : d = 1000000000 := by
  obtain ⟨dist', hb, _, hd⟩ := dijkstra_final g src dest fuel d hnn hrun
  have hsome := hb.2.2.2.2 dest hkey
  obtain ⟨dv, hdv⟩ := Option.isSome_iff_exists.mp hsome
  rw [distGet_of_some dist' dest dv hdv] at hd
  have hddv : d = dv := hd
  rw [hddv]
  rcases hb.2.2.1 dest dv hdv with hp | h9 | ⟨h0, hnk⟩
  · exact absurd ⟨dv, hp⟩ hnc
  · exact h9
  · exact absurd hkey hnk

/-- Witness for C5: in the two-node edgeless graph {A, B}, B is a key,
unreachable from A, and the code indeed reports 10^9. -/
theorem claim_C5_witness :
    (NonnegGraph [("A", ([] : List (String × Int))), ("B", [])]
      ∧ "B" ∈ graphKeys [("A", ([] : List (String × Int))), ("B", [])]
      ∧ ¬(∃ W, Path [("A", ([] : List (String × Int))), ("B", [])] "A" "B" W)
      ∧ dijkstra [("A", ([] : List (String × Int))), ("B", [])] "A" "B" 10
          = some 1000000000)
    ∧ (1000000000 : Int) = 1000000000 := by
  have hchar : ∀ (x : String) (W : Int),
      Path [("A", ([] : List (String × Int))), ("B", [])] "A" x W →
        x = "A" := by
    intro x W hp
    induction hp with
    | refl => rfl
    | tail p hedge ih =>
      rename_i u v d w
      rw [ih] at hedge
      rw [show graphAdj [("A", ([] : List (String × Int))), ("B", [])] "A"
        = [] from rfl] at hedge
      exact absurd hedge (by simp)
  have hnc : ¬ ∃ W,
      Path [("A", ([] : List (String × Int))), ("B", [])] "A" "B" W := by
    rintro ⟨W, hp⟩
    exact absurd (hchar "B" W hp) (by decide)
  exact ⟨⟨by unfold NonnegGraph; decide, by decide, hnc, rfl⟩,
    claim_C5_unreachable _ "A" "B" 10 1000000000
      (by unfold NonnegGraph; decide) (by decide) hnc rfl⟩

/-- Claim C5, counterexample: in the one-node graph {A}, the destination B
is not connected to A (it is not even a key), and the final
`dist[dest]` read default-inserts 0 — the program prints 0, not the
infinity sentinel. -/
theorem claim_C5_counterexample :
    dijkstra [("A", ([] : List (String × Int)))] "A" "B" 10 = some 0
    ∧ ¬(∃ W, Path [("A", ([] : List (String × Int)))] "A" "B" W)
    ∧ (0 : Int) ≠ 1000000000 := by
  have hchar : ∀ (x : String) (W : Int),
      Path [("A", ([] : List (String × Int)))] "A" x W → x = "A" := by
    intro x W hp
    induction hp with
    | refl => rfl
    | tail p hedge ih =>
      rename_i u v d w
      rw [ih] at hedge
      rw [show graphAdj [("A", ([] : List (String × Int)))] "A" = []
        from rfl] at hedge
      exact absurd hedge (by simp)
  refine ⟨rfl, ?_, by norm_num⟩
  rintro ⟨W, hp⟩
  exact absurd (hchar "B" W hp) (by decide)

end HostelDada
